import Mathlib

/-!
Verification development for the video analysis-and-resolution pipeline.

The definitions below are a shallow embedding of the Python sources:
timestamps, durations and confidences are rationals, per-frame and
per-segment records are structures, and the stateful loops of the source
become explicit recursion or folds.  Names follow the source where Lean
allows it (leading underscores are dropped).
-/

namespace Stinercut

/-- Per-timestamp classification produced by the ML classifier
(ml_classifier.FrameClassification). -/
structure FrameClassification where
  timestamp : ℚ
  category : String
  confidence : ℚ
  probabilities : List (String × ℚ)
deriving DecidableEq, Repr

/-- Detected segment within a video (segment_detector.VideoSegment). -/
structure VideoSegment where
  start_time : ℚ
  end_time : ℚ
  classification : String
  confidence : ℚ
  sequence_order : ℕ
deriving DecidableEq, Repr

/-! ## Segment detector (segment_detector.py) -/

/-- Neurostiner category to domain classification map
(SegmentDetector.CATEGORY_MAP, with the .get default of unknown). -/
def CATEGORY_MAP (c : String) : String :=
  if c = "freefall" then "freefall"
  else if c = "canopy" then "canopy"
  else if c = "in_plane" then "flight"
  else if c = "boden" then "ground"
  else "unknown"

/-- Insertion-ordered tally update: the counterpart of incrementing one key
of a Python Counter/dict, keeping first-occurrence key order. -/
def bump : List (String × ℕ) → String → List (String × ℕ)
  | [], c => [(c, 1)]
  | (c', n) :: rest, c =>
    if c' = c then (c', n + 1) :: rest else (c', n) :: bump rest c

/-- Tally of a list of categories in first-occurrence order
(collections.Counter preserves insertion order). -/
def tally (l : List String) : List (String × ℕ) :=
  l.foldl bump []

/-- Most common element of a list of categories; ties are broken in favour
of the first-encountered category, as Counter.most_common does. -/
def most_common (l : List String) : String :=
  match tally l with
  | [] => ""
  | (c, n) :: rest =>
    (rest.foldl (fun b p => if b.2 < p.2 then p else b) (c, n)).1

/-- Majority-vote smoothing over a sliding window
(SegmentDetector._apply_smoothing).  Lists no longer than the window are
returned unchanged; otherwise each sample keeps its timestamp, confidence
and probabilities and is possibly relabeled by the window majority. -/
def apply_smoothing (w : ℕ) (cs : List FrameClassification) : List FrameClassification :=
  if cs.length ≤ w then cs
  else
    let half := w / 2
    cs.enum.map fun p =>
      let i := p.1
      let clf := p.2
      let s := i - half
      let e := min cs.length (i + half + 1)
      let window := (cs.drop s).take (e - s)
      let mc := most_common (window.map (·.category))
      if mc = clf.category then clf
      else { clf with category := mc }

/-- Category mapping step (SegmentDetector._map_categories): produce
(timestamp, mapped category, confidence) triples. -/
def map_categories (cs : List FrameClassification) : List (ℚ × String × ℚ) :=
  cs.map fun clf => (clf.timestamp, CATEGORY_MAP clf.category, clf.confidence)

/-- Arithmetic mean of a list of confidences. -/
def avgConf (l : List ℚ) : ℚ := l.sum / l.length

/-- Loop of SegmentDetector._detect_boundaries: consume the remaining
triples while tracking the open segment (start, category, member
confidences) and the last timestamp seen. -/
def boundaries_go (cur_start : ℚ) (cur_cat : String) (confs : List ℚ) (lastTs : ℚ) :
    List (ℚ × String × ℚ) → List VideoSegment
  | [] => [⟨cur_start, lastTs + 1, cur_cat, avgConf confs, 0⟩]
  | (t, c, conf) :: rest =>
    if c ≠ cur_cat then
      ⟨cur_start, t, cur_cat, avgConf confs, 0⟩ :: boundaries_go t c [conf] t rest
    else
      boundaries_go cur_start cur_cat (confs ++ [conf]) t rest

/-- Boundary detection (SegmentDetector._detect_boundaries): collapse
consecutive same-category samples into segments; the final segment extends
one unit past the last sample. -/
def detect_boundaries : List (ℚ × String × ℚ) → List VideoSegment
  | [] => []
  | (t, c, conf) :: rest => boundaries_go t c [conf] t rest

/-- Loop of SegmentDetector._merge_short_segments.  The accumulator holds
the merged output in reverse (its head is the most recently emitted
segment, Python's merged[-1]); atStart records whether the current index
is 0. -/
def merge_go (minD : ℚ) : Bool → List VideoSegment → List VideoSegment → List VideoSegment
  | _, acc, [] => acc.reverse
  | _, acc, [seg] =>
    -- last index: the short-merge branch requires i < len - 1, so this is
    -- always the boundary branch of the source
    (match acc with
     | prev :: acc' =>
       if prev.classification = seg.classification then
         merge_go minD false
           ({ prev with end_time := seg.end_time,
                        confidence := (prev.confidence + seg.confidence) / 2 } :: acc') []
       else merge_go minD false (seg :: acc) []
     | [] => merge_go minD false [seg] [])
  | atStart, acc, seg :: next :: rest' =>
    if seg.end_time - seg.start_time < minD ∧ atStart = false then
      -- short interior segment
      (match acc with
       | prev :: acc' =>
         if prev.classification = seg.classification then
           merge_go minD false ({ prev with end_time := seg.end_time } :: acc') (next :: rest')
         else if next.classification = seg.classification then
           merge_go minD false acc
             (⟨seg.start_time, next.end_time, next.classification,
               (seg.confidence + next.confidence) / 2, 0⟩ :: rest')
         else
           merge_go minD false ({ prev with end_time := seg.end_time } :: acc') (next :: rest')
       | [] =>
         if next.classification = seg.classification then
           merge_go minD false []
             (⟨seg.start_time, next.end_time, next.classification,
               (seg.confidence + next.confidence) / 2, 0⟩ :: rest')
         else merge_go minD false [seg] (next :: rest'))
    else
      -- segment is long enough or at a boundary
      (match acc with
       | prev :: acc' =>
         if prev.classification = seg.classification then
           merge_go minD false
             ({ prev with end_time := seg.end_time,
                          confidence := (prev.confidence + seg.confidence) / 2 } :: acc')
             (next :: rest')
         else merge_go minD false (seg :: acc) (next :: rest')
       | [] => merge_go minD false [seg] (next :: rest'))
termination_by _ _ l => l.length

/-- Short-segment merging (SegmentDetector._merge_short_segments). -/
def merge_short_segments (minD : ℚ) (segments : List VideoSegment) : List VideoSegment :=
  if segments.length ≤ 1 then segments else merge_go minD true [] segments

/-- Loop of SegmentDetector._refine_ground_classifications, with the
jump-occurred flag made explicit. -/
def refine_go (jump : Bool) : List VideoSegment → List VideoSegment
  | [] => []
  | s :: rest =>
    if s.classification = "freefall" ∨ s.classification = "canopy" then
      s :: refine_go true rest
    else if s.classification = "ground" then
      { s with classification := if jump then "ground_after" else "ground_before" }
        :: refine_go jump rest
    else s :: refine_go jump rest

/-- Ground refinement (SegmentDetector._refine_ground_classifications). -/
def refine_ground_classifications (segments : List VideoSegment) : List VideoSegment :=
  refine_go false segments

/-- QR segment injection (SegmentDetector._add_qr_segment). -/
def add_qr_segment (segments : List VideoSegment) (qr_end_time : ℚ) : List VideoSegment :=
  match segments with
  | [] => [⟨0, qr_end_time, "qr_code", 1, 0⟩]
  | first :: rest =>
    if first.start_time < qr_end_time then
      if first.end_time ≤ qr_end_time then
        -- first segment is entirely within the QR period: relabel it
        ({ first with classification := "qr_code", start_time := 0 }) :: rest
      else
        -- split the first segment
        ⟨0, qr_end_time, "qr_code", 1, 0⟩ :: ({ first with start_time := qr_end_time }) :: rest
    else
      ⟨0, qr_end_time, "qr_code", 1, 0⟩ :: first :: rest

/-- Priority table of SegmentDetector._calculate_dominant (with the .get
default of 0 for unknown labels). -/
def priority (c : String) : ℕ :=
  if c = "freefall" then 6
  else if c = "canopy" then 5
  else if c = "flight" then 4
  else if c = "ground_before" then 3
  else if c = "ground_after" then 2
  else if c = "qr_code" then 1
  else 0

/-- Insertion-ordered duration accumulation, the counterpart of
durations[c] = durations.get(c, 0) + d on a Python dict. -/
def addDuration : List (String × ℚ) → String → ℚ → List (String × ℚ)
  | [], c, d => [(c, d)]
  | (c', d') :: rest, c, d =>
    if c' = c then (c', d' + d) :: rest else (c', d') :: addDuration rest c d

/-- Total duration per classification in first-occurrence order. -/
def durationsOf (segments : List VideoSegment) : List (String × ℚ) :=
  segments.foldl (fun acc s => addDuration acc s.classification (s.end_time - s.start_time)) []

/-- Selection loop of SegmentDetector._calculate_dominant: higher priority
wins, and on equal priority the larger accumulated duration wins. -/
def selectDominant : List (String × ℚ) → String × ℚ → String
  | [], b => b.1
  | (c, d) :: rest, (b, bd) =>
    if priority b < priority c then selectDominant rest (c, d)
    else if priority c = priority b then
      if bd < d then selectDominant rest (c, d) else selectDominant rest (b, bd)
    else selectDominant rest (b, bd)

/-- Dominant classification of a segment list
(SegmentDetector._calculate_dominant). -/
def calculate_dominant (segments : List VideoSegment) : String :=
  match segments with
  | [] => "unknown"
  | _ => selectDominant (durationsOf segments) ("unknown", 0)

/-- Sequence numbering: 0-based order assigned after all other steps. -/
def assign_sequence (segments : List VideoSegment) : List VideoSegment :=
  segments.enum.map fun p => { p.2 with sequence_order := p.1 }

/-- Full pipeline of SegmentDetector.detect_segments.  The optional QR end
time mirrors the Python qr_end_time argument, where both None and a
non-positive value skip the injection step. -/
def detect_segments (w : ℕ) (minD : ℚ) (classifications : List FrameClassification)
    (qr_end_time : Option ℚ) : List VideoSegment × String :=
  match classifications with
  | [] => ([], "unknown")
  | _ =>
    let smoothed := apply_smoothing w classifications
    let mapped := map_categories smoothed
    let raw_segments := detect_boundaries mapped
    let merged := merge_short_segments minD raw_segments
    let refined := refine_ground_classifications merged
    let withQr :=
      match qr_end_time with
      | some e => if 0 < e then add_qr_segment refined e else refined
      | none => refined
    let numbered := assign_sequence withQr
    (numbered, calculate_dominant numbered)

/-! ## Jump resolver (jump_resolver.py) -/

/-- Analyzed video file record (models.video_file.VideoFile, restricted to
the fields the resolver reads and writes). -/
structure VideoFile where
  detected_workload_uuid : Option String
  dominant_classification : String
  recorded_at : Option ℚ
  created_at : ℚ
  current_folder_uuid : Option String
  filepath : String
  original_filename : String
deriving DecidableEq, Repr

/-- Mapping of files to a workload (jump_resolver.JumpMapping). -/
structure JumpMapping where
  workload_uuid : String
  files : List VideoFile
  folder_name : Option String
deriving DecidableEq, Repr

/-- Result of jump resolution (jump_resolver.ResolutionResult). -/
structure ResolutionResult where
  status : String
  resolution_type : String
  message : Option String
  mappings : List JumpMapping
  detected_qr_uuids : List String
  freefall_count : ℕ
deriving DecidableEq, Repr

/-- Python truthiness of the detected_workload_uuid attribute: None and the
empty string are both falsy. -/
def truthyUuid (f : VideoFile) : Option String :=
  match f.detected_workload_uuid with
  | some u => if u = "" then none else some u
  | none => none

/-- Sort key of the resolver: recorded_at or created_at. -/
def sortKey (f : VideoFile) : ℚ :=
  f.recorded_at.getD f.created_at

/-- Files sorted by recording time (Python sorted is a stable merge sort). -/
def sortFiles (files : List VideoFile) : List VideoFile :=
  files.mergeSort (fun a b => sortKey a ≤ sortKey b)

/-- Loop of JumpResolver.count_freefall_segments over the time-sorted
files, carrying the in-freefall-sequence flag. -/
def count_go : Bool → ℕ → List VideoFile → ℕ
  | _, n, [] => n
  | inSeq, n, f :: rest =>
    if f.dominant_classification = "freefall" then
      if inSeq then count_go inSeq n rest
      else count_go true (n + 1) rest
    else if f.dominant_classification = "canopy" ∨ f.dominant_classification = "ground_after" then
      count_go false n rest
    else count_go inSeq n rest

/-- Freefall run counting (JumpResolver.count_freefall_segments). -/
def count_freefall_segments (files : List VideoFile) : ℕ :=
  count_go false 0 (sortFiles files)

/-- Distinct truthy workload identifiers of a batch; only their number and
membership matter, mirroring the Python set. -/
def qrUuidList (files : List VideoFile) : List String :=
  (files.filterMap truthyUuid).dedup

/-- Loop of JumpResolver._map_qr_to_freefalls over the time-sorted files,
carrying the current marker and the current group of files. -/
def map_go : Option String → List VideoFile → List VideoFile → List JumpMapping
  | cur, curFiles, [] =>
    match cur with
    | some u => if curFiles ≠ [] then [⟨u, curFiles, none⟩] else []
    | none => []
  | cur, curFiles, f :: rest =>
    match truthyUuid f with
    | some u =>
      if some u ≠ cur then
        (match cur with
         | some cu =>
           if curFiles ≠ [] then ⟨cu, curFiles, none⟩ :: map_go (some u) [f] rest
           else map_go (some u) [f] rest
         | none => map_go (some u) [f] rest)
      else map_go cur (curFiles ++ [f]) rest
    | none => map_go cur (curFiles ++ [f]) rest

/-- Marker-to-run mapping (JumpResolver._map_qr_to_freefalls): each marker
claims all subsequent files until the next marker is seen. -/
def map_qr_to_freefalls (files : List VideoFile) : List JumpMapping :=
  map_go none [] (sortFiles files)

/-- Resolution decision procedure (JumpResolver.resolve_jumps). -/
def resolve_jumps (files : List VideoFile) : ResolutionResult :=
  let qr_uuids := qrUuidList files
  let freefall_count := count_freefall_segments files
  let qr_count := qr_uuids.length
  if qr_count = 1 ∧ freefall_count = 1 then
    { status := "resolved", resolution_type := "auto_single", message := none
      mappings := [⟨qr_uuids.headD "", files, none⟩]
      detected_qr_uuids := qr_uuids, freefall_count := freefall_count }
  else if qr_count = freefall_count ∧ 1 < qr_count then
    { status := "resolved", resolution_type := "auto_multi", message := none
      mappings := map_qr_to_freefalls files
      detected_qr_uuids := qr_uuids, freefall_count := freefall_count }
  else if qr_count = 0 ∧ freefall_count = 1 then
    { status := "needs_manual", resolution_type := "missing_qr"
      message := some "Single jump detected but no QR code found. Manual workload assignment needed."
      mappings := [], detected_qr_uuids := [], freefall_count := freefall_count }
  else
    { status := "needs_manual", resolution_type := "ambiguous"
      message := some ("Found " ++ toString qr_count ++ " QR codes but "
        ++ toString freefall_count ++ " freefalls. Manual splitting required.")
      mappings := [], detected_qr_uuids := qr_uuids, freefall_count := freefall_count }

/-- File-system environment for the move step: which source paths exist and
which moves raise (shutil.move failures). -/
structure MoveEnv where
  exists_src : VideoFile → Bool
  move_fails : VideoFile → Bool

/-- Folder naming (JumpResolver.get_folder_name): a looked-up client name
prefixes the identifier, with fallback to the raw identifier; the lookup
and name sanitization are abstracted as a function. -/
def get_folder_name (clientFolderPrefix : String → Option String) (workload_uuid : String) :
    String :=
  match clientFolderPrefix workload_uuid with
  | some sanitized => sanitized ++ "_" ++ workload_uuid
  | none => workload_uuid

/-- Loop of JumpResolver.move_files_to_workload: move each file whose
source exists, updating its folder and path fields; a failing move aborts
the loop, leaving the failing file and all later files untouched.  Returns
the success flag and the updated records. -/
def move_files_go (env : MoveEnv) (folder_name : String) :
    List VideoFile → Bool × List VideoFile
  | [] => (true, [])
  | f :: fs =>
    if env.exists_src f then
      if env.move_fails f then (false, f :: fs)
      else
        let f' := { f with current_folder_uuid := some folder_name,
                           filepath := folder_name ++ "/" ++ f.original_filename }
        let r := move_files_go env folder_name fs
        (r.1, f' :: r.2)
    else
      let r := move_files_go env folder_name fs
      (r.1, f :: r.2)

/-- File move for one mapping (JumpResolver.move_files_to_workload):
returns the folder name on success, none on failure, together with the
(possibly partially) updated file records. -/
def move_files_to_workload (env : MoveEnv) (clientFolderPrefix : String → Option String)
    (files : List VideoFile) (workload_uuid : String) : Option String × List VideoFile :=
  let folder_name := get_folder_name clientFolderPrefix workload_uuid
  let r := move_files_go env folder_name files
  (if r.1 then some folder_name else none, r.2)

/-- Loop of JumpResolver.execute_resolution over the mappings, carrying the
first successful folder name; a failed move aborts immediately, leaving
later mappings untouched. -/
def execute_go (env : MoveEnv) (clientFolderPrefix : String → Option String) :
    Option String → List JumpMapping → Option String × List JumpMapping
  | acc, [] => (acc, [])
  | acc, m :: ms =>
    let r := move_files_to_workload env clientFolderPrefix m.files m.workload_uuid
    match r.1 with
    | some folder_name =>
      let m' := { m with files := r.2, folder_name := some folder_name }
      let rest := execute_go env clientFolderPrefix (acc.getD folder_name |> some) ms
      (rest.1, m' :: rest.2)
    | none => (none, { m with files := r.2 } :: ms)

/-- Resolution execution (JumpResolver.execute_resolution): only a
resolved result moves anything; the returned mappings are the file-record
state after the (possibly aborted) run. -/
def execute_resolution (env : MoveEnv) (clientFolderPrefix : String → Option String)
    (result : ResolutionResult) : Option String × List JumpMapping :=
  if result.status ≠ "resolved" then (none, result.mappings)
  else execute_go env clientFolderPrefix none result.mappings

/-! ## Adaptive sampler (ml_classifier.MLClassifier.classify_video_adaptive) -/

/-- Coarse sampling loop: timestamps from t, every C seconds, while below
the duration. -/
def coarse_loop (D C t : ℚ) : List ℚ :=
  if h : 0 < C ∧ t < D then t :: coarse_loop D C (t + C) else []
termination_by (⌈(D - t) / C⌉).toNat
decreasing_by
  have hC : (0:ℚ) < C := h.1
  have ht : t < D := h.2
  have hdiv : (D - (t + C)) / C = (D - t) / C - 1 := by
    field_simp
    ring
  have hpos : (0:ℚ) < (D - t) / C := div_pos (by linarith) hC
  have hceil : 0 < ⌈(D - t) / C⌉ := Int.ceil_pos.mpr hpos
  rw [hdiv, Int.ceil_sub_one]
  omega

/-- Coarse pass timestamps, with the always-included near-end sample
(ml_classifier lines 253-262). -/
def coarse_timestamps (D C : ℚ) : List ℚ :=
  let ts := coarse_loop D C 0
  match ts.getLast? with
  | some last => if last < D - 1 then ts ++ [min (D - 1/10) (last + C)] else ts
  | none => ts

/-- Fine sampling loop within one transition window: timestamps from t,
every F seconds, while strictly inside the window. -/
def fine_loop (endT F t : ℚ) : List ℚ :=
  if h : 0 < F ∧ t < endT then t :: fine_loop endT F (t + F) else []
termination_by (⌈(endT - t) / F⌉).toNat
decreasing_by
  have hF : (0:ℚ) < F := h.1
  have ht : t < endT := h.2
  have hdiv : (endT - (t + F)) / F = (endT - t) / F - 1 := by
    field_simp
    ring
  have hpos : (0:ℚ) < (endT - t) / F := div_pos (by linarith) hF
  have hceil : 0 < ⌈(endT - t) / F⌉ := Int.ceil_pos.mpr hpos
  rw [hdiv, Int.ceil_sub_one]
  omega

/-- Transition windows: adjacent coarse samples whose categories differ
(ml_classifier lines 290-295). -/
def transitionsOf (rs : List (ℚ × String)) : List (ℚ × ℚ) :=
  (rs.zip rs.tail).filterMap fun p =>
    if p.1.2 ≠ p.2.2 then some (p.1.1, p.2.1) else none

/-- Deduplicated fine-pass timestamps collected over all transition
windows (the Python set of timestamps). -/
def fine_stamps (F : ℚ) (trans : List (ℚ × ℚ)) : List ℚ :=
  ((trans.map fun p => fine_loop p.2 F (p.1 + F)).flatten).dedup

/-- Adaptive two-pass classification of one video
(MLClassifier.classify_video_adaptive).  The frame classifier is abstracted
as a total function from timestamp to category; a non-positive duration
yields an empty result. -/
def classify_video_adaptive (cat : ℚ → String) (D C F : ℚ) : List (ℚ × String) :=
  if D ≤ 0 then []
  else
    let coarse := (coarse_timestamps D C).map fun t => (t, cat t)
    let fineTs := ((fine_stamps F (transitionsOf coarse)).filter
      (fun t => t ∉ coarse_timestamps D C)).mergeSort (fun a b => a ≤ b)
    let fine := fineTs.map fun t => (t, cat t)
    (coarse ++ fine).mergeSort (fun a b => a.1 ≤ b.1)

/-! ## Batch orchestration (analyzer.VideoAnalyzer.analyze_folder),
modeled as a pure decision structure over the enumeration result, the
analyzed records, and the resolution/move outcomes. -/

/-- Import batch entity (models restricted to the analyzed fields). -/
structure ImportBatch where
  uuid : String
  total_files : ℕ
  analyzed_files : ℕ
  status : String
  error_message : Option String
  resolution_type : Option String
  resolved_folder_name : Option String
  detected_qr_count : ℕ
  detected_freefall_count : ℕ
deriving DecidableEq, Repr

/-- Batch analysis control flow (analyzer lines 78-148).  The second
component of the successful result is the list of files on which per-file
analysis work was attempted.  A missing folder raises, modeled by the
error branch of Except. -/
def analyze_folder (folder_is_dir : Bool) (folder_uuid : String)
    (video_files : List String) (analyzed_records : List VideoFile)
    (env : MoveEnv) (clientFolderPrefix : String → Option String) :
    Except String (ImportBatch × List String) :=
  if folder_is_dir = false then .error ("Folder not found: " ++ folder_uuid)
  else
    let batch0 : ImportBatch :=
      ⟨folder_uuid, video_files.length, 0, "analyzing", none, none, none, 0, 0⟩
    if video_files = [] then
      .ok ({ batch0 with
             status := "error"
             error_message := some "No video files found in folder" }, [])
    else
      let resolution := resolve_jumps analyzed_records
      let batch1 := { batch0 with
        analyzed_files := analyzed_records.length
        detected_qr_count := resolution.detected_qr_uuids.length
        detected_freefall_count := resolution.freefall_count }
      if resolution.status = "resolved" then
        let r := execute_resolution env clientFolderPrefix resolution
        match r.1 with
        | some fname =>
          .ok ({ batch1 with
                 status := "resolved"
                 resolution_type := some resolution.resolution_type
                 resolved_folder_name := some fname }, video_files)
        | none =>
          .ok ({ batch1 with
                 status := "error"
                 error_message := some "Failed to move files to workload folders" },
               video_files)
      else
        .ok ({ batch1 with
               status := "needs_manual"
               resolution_type := some resolution.resolution_type
               error_message := resolution.message }, video_files)

/-! ## Specification predicates and concrete instances -/

/-- Canonical domain vocabulary of segment labels. -/
def canonicalLabels : List String :=
  ["freefall", "canopy", "flight", "ground_before", "ground_after", "qr_code", "unknown"]

/-- Adjacent segments meet: the left segment ends where the right one
starts. -/
def meets (a b : VideoSegment) : Prop := a.end_time = b.start_time

/-- Coverage invariant of a segment list: non-empty, gap-free and
contiguous, with positive durations, starting at S and ending at E. -/
def SegSpan (l : List VideoSegment) (S E : ℚ) : Prop :=
  l ≠ [] ∧ List.Chain' meets l ∧ (∀ s ∈ l, s.start_time < s.end_time) ∧
    (∀ s ∈ l.head?, s.start_time = S) ∧ (∀ s ∈ l.getLast?, s.end_time = E)

/-- Concrete segment list on which short-segment merging is not
idempotent (its third segment overlaps the second one). -/
def mergeCounterexample : List VideoSegment :=
  [⟨0, 5, "flight", 1, 0⟩, ⟨5, 10, "freefall", 1, 0⟩,
   ⟨6, 13/2, "canopy", 1, 0⟩, ⟨20, 30, "ground", 1, 0⟩]

/-- Concrete batch on which auto-multi resolution drops the earliest file:
the first file carries no marker, so no mapping claims it. -/
def filesC2 : List VideoFile :=
  [⟨none, "ground_before", some 0, 0, none, "p0", "n0"⟩,
   ⟨some "A", "freefall", some 1, 0, none, "p1", "n1"⟩,
   ⟨none, "canopy", some 2, 0, none, "p2", "n2"⟩,
   ⟨some "B", "freefall", some 3, 0, none, "p3", "n3"⟩]

/-- File record after a successful move into folder fn: the folder and
path fields are updated as in move_files_to_workload. -/
def movedFile (fn : String) (f : VideoFile) : VideoFile :=
  { f with current_folder_uuid := some fn, filepath := fn ++ "/" ++ f.original_filename }

/-! ## Theorems -/

/-- C10: for the empty classification list, detect_segments returns an
empty segment list and dominant label unknown for every marker-end-time
argument; no identity-marker segment is produced even when a marker end
time is supplied. -/
theorem claim_C10 :
    ∀ (w : ℕ) (minD : ℚ) (q : Option ℚ),
      detect_segments w minD [] q = ([], "unknown") :=
  fun _ _ _ => rfl

/-- C8: when the import folder exists but the enumeration finds no video
files, analyze_folder sets the batch status to error (not needs_manual)
with an error message, and no per-file analysis work is attempted. -/
theorem claim_C8 (folder_uuid : String) (analyzed_records : List VideoFile)
    (env : MoveEnv) (clientFolderPrefix : String → Option String) :
    ∃ b, analyze_folder true folder_uuid [] analyzed_records env clientFolderPrefix
        = .ok (b, []) ∧
      b.status = "error" ∧ b.status ≠ "needs_manual" ∧
      b.error_message = some "No video files found in folder" := by
  refine ⟨⟨folder_uuid, 0, 0, "error", some "No video files found in folder",
    none, none, 0, 0⟩, ?_, rfl, by simp, rfl⟩
  rfl

/-- C6 counterexample: with segments flight over zero to three and canopy
over three to eight and marker end time five, the injected head keeps the
first segment's end time three, so it does not span zero to five. -/
theorem claim_C6_counterexample :
    ¬ (∀ s ∈ (add_qr_segment [⟨0, 3, "flight", 1, 0⟩, ⟨3, 8, "canopy", 1, 0⟩] 5).head?,
        s.end_time = 5) := by
  norm_num [add_qr_segment]

/-- C6 (amended): for every segment list and marker end time e above zero,
injection yields a head labeled qr_code starting at 0; the head ends
exactly at e unless the first input segment starts before e and ends at or
before e, in which case that segment is relabeled keeping its end time;
a first segment strictly overlapping e is split at e; and every input
segment starting at or after e, as well as everything after the first, is
kept. -/
theorem claim_C6 (segments : List VideoSegment) (e : ℚ) (he : 0 < e) :
    (∀ s ∈ (add_qr_segment segments e).head?,
        s.classification = "qr_code" ∧ s.start_time = 0) ∧
    ((∀ first ∈ segments.head?, e < first.end_time ∨ e ≤ first.start_time) →
      ∀ s ∈ (add_qr_segment segments e).head?, s.end_time = e) ∧
    (∀ first ∈ segments.head?, first.start_time < e → first.end_time ≤ e →
      add_qr_segment segments e
        = { first with classification := "qr_code", start_time := 0 } :: segments.tail) ∧
    (∀ first ∈ segments.head?, first.start_time < e → e < first.end_time →
      add_qr_segment segments e
        = ⟨0, e, "qr_code", 1, 0⟩ :: { first with start_time := e } :: segments.tail) ∧
    (∀ s ∈ segments, e ≤ s.start_time → s ∈ add_qr_segment segments e) := by
  cases segments with
  | nil => refine ⟨by simp [add_qr_segment], by simp [add_qr_segment], by simp, by simp, by simp⟩
  | cons first rest =>
    by_cases h1 : first.start_time < e
    · by_cases h2 : first.end_time ≤ e
      · refine ⟨?_, ?_, ?_, ?_, ?_⟩
        · simp [add_qr_segment, h1, if_pos h2]
        · intro hfirst
          rcases hfirst first (by simp) with h | h
          · exact absurd h2 (not_le.mpr h)
          · exact absurd h1 (not_lt.mpr h)
        · intro f hf _ _
          simp only [List.head?_cons, Option.mem_some_iff] at hf
          subst hf
          simp [add_qr_segment, h1, if_pos h2]
        · intro f hf _ hcontra
          simp only [List.head?_cons, Option.mem_some_iff] at hf
          subst hf
          exact absurd h2 (not_le.mpr hcontra)
        · intro s hs hse
          rcases List.mem_cons.mp hs with h | h
          · subst h; exact absurd h1 (not_lt.mpr hse)
          · simp only [add_qr_segment, if_pos h1, if_pos h2]
            exact List.mem_cons_of_mem _ h
      · refine ⟨?_, ?_, ?_, ?_, ?_⟩
        · simp [add_qr_segment, h1, if_neg h2]
        · intro _
          simp [add_qr_segment, h1, if_neg h2]
        · intro f hf _ hcontra
          simp only [List.head?_cons, Option.mem_some_iff] at hf
          subst hf
          exact absurd hcontra h2
        · intro f hf _ _
          simp only [List.head?_cons, Option.mem_some_iff] at hf
          subst hf
          simp [add_qr_segment, h1, if_neg h2]
        · intro s hs hse
          rcases List.mem_cons.mp hs with h | h
          · subst h; exact absurd h1 (not_lt.mpr hse)
          · simp only [add_qr_segment, if_pos h1, if_neg h2]
            exact List.mem_cons_of_mem _ (List.mem_cons_of_mem _ h)
    · refine ⟨?_, ?_, ?_, ?_, ?_⟩
      · simp [add_qr_segment, h1]
      · intro _
        simp [add_qr_segment, h1]
      · intro f hf hcontra _
        simp only [List.head?_cons, Option.mem_some_iff] at hf
        subst hf
        exact absurd hcontra h1
      · intro f hf hcontra _
        simp only [List.head?_cons, Option.mem_some_iff] at hf
        subst hf
        exact absurd hcontra h1
      · intro s hs _
        simp only [add_qr_segment, if_neg h1]
        exact List.mem_cons_of_mem _ hs

/-- C6 witness: the amended theorem applied at a concrete split input. -/
theorem claim_C6_witness :
    (0:ℚ) < 2 ∧
      add_qr_segment [⟨0, 3, "flight", 1, 0⟩, ⟨3, 8, "canopy", 1, 0⟩] 2
        = [⟨0, 2, "qr_code", 1, 0⟩, ⟨2, 3, "flight", 1, 0⟩, ⟨3, 8, "canopy", 1, 0⟩] := by
  have h := (claim_C6 [⟨0, 3, "flight", 1, 0⟩, ⟨3, 8, "canopy", 1, 0⟩] 2 (by norm_num)).2.2.2.1
    ⟨0, 3, "flight", 1, 0⟩ (by simp) (by norm_num) (by norm_num)
  exact ⟨by norm_num, h⟩

/-- C1: the resolution decision table.  Writing Q for the number of
distinct detected workload identifiers and J for the freefall run count:
Q = 1 and J = 1 gives resolved auto_single; Q = J with Q above 1 gives
resolved auto_multi; Q = 0 and J = 1 gives needs_manual missing_qr; every
other combination gives needs_manual ambiguous with a reason naming both
counts. -/
theorem claim_C1 (files : List VideoFile) :
    ((qrUuidList files).length = 1 ∧ count_freefall_segments files = 1 →
      (resolve_jumps files).status = "resolved" ∧
      (resolve_jumps files).resolution_type = "auto_single") ∧
    ((qrUuidList files).length = count_freefall_segments files ∧
        1 < (qrUuidList files).length →
      (resolve_jumps files).status = "resolved" ∧
      (resolve_jumps files).resolution_type = "auto_multi") ∧
    ((qrUuidList files).length = 0 ∧ count_freefall_segments files = 1 →
      (resolve_jumps files).status = "needs_manual" ∧
      (resolve_jumps files).resolution_type = "missing_qr") ∧
    (¬((qrUuidList files).length = 1 ∧ count_freefall_segments files = 1) →
      ¬((qrUuidList files).length = count_freefall_segments files ∧
          1 < (qrUuidList files).length) →
      ¬((qrUuidList files).length = 0 ∧ count_freefall_segments files = 1) →
      (resolve_jumps files).status = "needs_manual" ∧
      (resolve_jumps files).resolution_type = "ambiguous" ∧
      (resolve_jumps files).message
        = some ("Found " ++ toString (qrUuidList files).length ++ " QR codes but "
            ++ toString (count_freefall_segments files)
            ++ " freefalls. Manual splitting required.")) := by
  refine ⟨fun h => ?_, fun h => ?_, fun h => ?_, fun h1 h2 h3 => ?_⟩
  · simp only [resolve_jumps, if_pos h]
    exact ⟨trivial, trivial⟩
  · have hne : ¬((qrUuidList files).length = 1 ∧ count_freefall_segments files = 1) := by
      rintro ⟨e, _⟩; omega
    simp only [resolve_jumps, if_neg hne, if_pos h]
    exact ⟨trivial, trivial⟩
  · have hne1 : ¬((qrUuidList files).length = 1 ∧ count_freefall_segments files = 1) := by
      rintro ⟨e, _⟩; omega
    have hne2 : ¬((qrUuidList files).length = count_freefall_segments files ∧
        1 < (qrUuidList files).length) := by
      rintro ⟨_, e⟩; omega
    simp only [resolve_jumps, if_neg hne1, if_neg hne2, if_pos h]
    exact ⟨trivial, trivial⟩
  · simp only [resolve_jumps, if_neg h1, if_neg h2, if_neg h3]
    exact ⟨trivial, trivial, trivial⟩
-- end claim_C1 proof

/-- C1 witness: the decision table applied to four concrete batches, one
per row. -/
theorem claim_C1_witness :
    ((resolve_jumps [⟨some "A", "freefall", some 0, 0, none, "p", "n"⟩]).status = "resolved" ∧
      (resolve_jumps [⟨some "A", "freefall", some 0, 0, none, "p", "n"⟩]).resolution_type
        = "auto_single") ∧
    ((resolve_jumps filesC2).status = "resolved" ∧
      (resolve_jumps filesC2).resolution_type = "auto_multi") ∧
    ((resolve_jumps [⟨none, "freefall", some 0, 0, none, "p", "n"⟩]).status = "needs_manual" ∧
      (resolve_jumps [⟨none, "freefall", some 0, 0, none, "p", "n"⟩]).resolution_type
        = "missing_qr") ∧
    ((resolve_jumps ([] : List VideoFile)).status = "needs_manual" ∧
      (resolve_jumps ([] : List VideoFile)).resolution_type = "ambiguous" ∧
      (resolve_jumps ([] : List VideoFile)).message
        = some "Found 0 QR codes but 0 freefalls. Manual splitting required.") := by
  have k1 := (claim_C1 [⟨some "A", "freefall", some 0, 0, none, "p", "n"⟩]).1
  have k2 := (claim_C1 filesC2).2.1
  have k3 := (claim_C1 [⟨none, "freefall", some 0, 0, none, "p", "n"⟩]).2.2.1
  have k4 := (claim_C1 ([] : List VideoFile)).2.2.2
  refine ⟨k1 ⟨?_, ?_⟩, k2 ⟨?_, ?_⟩, k3 ⟨?_, ?_⟩, ?_⟩
  · rfl
  · norm_num [count_freefall_segments, sortFiles, List.mergeSort, count_go, sortKey]
  · have hq : (qrUuidList filesC2).length = 2 := rfl
    have hj : count_freefall_segments filesC2 = 2 := by
      norm_num [filesC2, count_freefall_segments, sortFiles, List.mergeSort, count_go,
        sortKey] <;> decide
    rw [hq, hj]
  · have hq : (qrUuidList filesC2).length = 2 := rfl
    rw [hq]
    norm_num
  · rfl
  · norm_num [count_freefall_segments, sortFiles, List.mergeSort, count_go, sortKey]
  · have q0 : (qrUuidList ([] : List VideoFile)).length = 0 := by
      norm_num [qrUuidList]
    have j0 : count_freefall_segments ([] : List VideoFile) = 0 := by
      norm_num [count_freefall_segments, sortFiles, List.mergeSort, count_go]
    have h := k4 (by omega) (by omega) (by omega)
    rw [q0, j0] at h
    exact h

/-- Files whose marker matches the current one (or carry none) are
absorbed into the current group. -/
theorem map_go_absorb (u : String) (g : List VideoFile)
    (hg : ∀ f ∈ g, truthyUuid f = some u ∨ truthyUuid f = none) :
    ∀ cf rest, map_go (some u) cf (g ++ rest) = map_go (some u) (cf ++ g) rest := by
  induction g with
  | nil => intro cf rest; simp
  | cons f g ih =>
    intro cf rest
    rcases hg f (by simp) with hf | hf
    · simp only [List.cons_append, map_go, hf, ne_eq, not_true_eq_false, if_neg,
        not_not, reduceIte, List.append_eq]
      rw [ih (fun x hx => hg x (by simp [hx])) (cf ++ [f]) rest]
      simp
    · simp only [List.cons_append, map_go, hf, List.append_eq]
      rw [ih (fun x hx => hg x (by simp [hx])) (cf ++ [f]) rest]
      simp

/-- The grouping loop over a concatenation of marker blocks emits one
mapping per block. -/
theorem map_go_blocks :
    ∀ (bs : List (String × List VideoFile)) (u : String) (cf g : List VideoFile),
      cf ≠ [] →
      (∀ f ∈ g, truthyUuid f = some u ∨ truthyUuid f = none) →
      (∀ b ∈ bs, ∃ f₀ g', b.2 = f₀ :: g' ∧ truthyUuid f₀ = some b.1 ∧
        ∀ f ∈ g', truthyUuid f = some b.1 ∨ truthyUuid f = none) →
      List.Chain' (fun a b => a ≠ b) (u :: bs.map Prod.fst) →
      map_go (some u) cf (g ++ (bs.map Prod.snd).flatten)
        = ⟨u, cf ++ g, none⟩ :: bs.map (fun b => ⟨b.1, b.2, none⟩) := by
  intro bs
  induction bs with
  | nil =>
    intro u cf g hcf hg _ _
    rw [map_go_absorb u g hg cf]
    have hne : cf ++ g ≠ [] := fun h => hcf (List.append_eq_nil.mp h).1
    simp [map_go, hne]
  | cons b bs ih =>
    intro u cf g hcf hg hblocks hchain
    obtain ⟨f₀, g', hb2, hf₀, hg'⟩ := hblocks b (by simp)
    have hflat : ((b :: bs).map Prod.snd).flatten
        = (f₀ :: g') ++ (bs.map Prod.snd).flatten := by
      simp [hb2]
    rw [hflat, show g ++ ((f₀ :: g') ++ (bs.map Prod.snd).flatten)
        = g ++ (f₀ :: (g' ++ (bs.map Prod.snd).flatten)) by simp,
      map_go_absorb u g hg cf]
    have hub : u ≠ b.1 := (List.chain'_cons.mp hchain).1
    have hne : cf ++ g ≠ [] := fun h => hcf (List.append_eq_nil.mp h).1
    simp only [map_go, hf₀, ne_eq, Option.some.injEq]
    rw [if_pos (fun h => hub h.symm), if_pos hne]
    have hchain' : List.Chain' (fun a b => a ≠ b) (b.1 :: bs.map Prod.fst) :=
      (List.chain'_cons.mp hchain).2
    rw [ih b.1 [f₀] g' (by simp) hg' (fun x hx => hblocks x (by simp [hx])) hchain']
    simp [hb2]

/-- C2 counterexample: in a batch with distinct capture times, two
distinct markers and two freefall runs, the earliest file carries no
marker and ends up in no mapping of the auto-multi resolution. -/
theorem claim_C2_counterexample :
    (filesC2.map sortKey).Nodup ∧
    (qrUuidList filesC2).length = 2 ∧
    count_freefall_segments filesC2 = 2 ∧
    ¬ (∀ f ∈ filesC2, ∃ m ∈ (resolve_jumps filesC2).mappings, f ∈ m.files) := by
  refine ⟨by norm_num [filesC2, sortKey], rfl, ?_, ?_⟩
  · norm_num [filesC2, count_freefall_segments, sortFiles, List.mergeSort, count_go,
      sortKey] <;> decide
  · intro h
    obtain ⟨m, hmem, hf⟩ := h ⟨none, "ground_before", some 0, 0, none, "p0", "n0"⟩
      (by simp [filesC2])
    have hm : (resolve_jumps filesC2).mappings
        = [⟨"A", [⟨some "A", "freefall", some 1, 0, none, "p1", "n1"⟩,
                  ⟨none, "canopy", some 2, 0, none, "p2", "n2"⟩], none⟩,
           ⟨"B", [⟨some "B", "freefall", some 3, 0, none, "p3", "n3"⟩], none⟩] := by
      norm_num [filesC2, resolve_jumps, qrUuidList, truthyUuid, count_freefall_segments,
        sortFiles, List.mergeSort, count_go, sortKey, map_qr_to_freefalls, map_go] <;> decide
    rw [hm] at hmem
    simp only [List.mem_cons, List.not_mem_nil, or_false] at hmem
    rcases hmem with rfl | rfl
    · norm_num at hf
    · norm_num at hf

/-- C2 (amended): when additionally the files in capture-time order form N
contiguous marker blocks — each block led by a file bearing that block's
identifier, followed only by files bearing the same identifier or none,
with adjacent blocks bearing different identifiers — the auto-multi
resolution emits exactly one mapping per block, partitioning the files
with none omitted or duplicated.  Without the block hypothesis, files
preceding the first marker are dropped. -/
theorem claim_C2 (files : List VideoFile) (bs : List (String × List VideoFile)) (N : ℕ)
    (hsort : sortFiles files = (bs.map Prod.snd).flatten)
    (hblocks : ∀ b ∈ bs, ∃ f₀ g', b.2 = f₀ :: g' ∧ truthyUuid f₀ = some b.1 ∧
      ∀ f ∈ g', truthyUuid f = some b.1 ∨ truthyUuid f = none)
    (hchain : List.Chain' (fun a b => a ≠ b) (bs.map Prod.fst))
    (hN : bs.length = N) (hN1 : 1 < N)
    (hQ : (qrUuidList files).length = N)
    (hJ : count_freefall_segments files = N)
    (hts : (files.map sortKey).Nodup) :
    (resolve_jumps files).status = "resolved" ∧
    (resolve_jumps files).resolution_type = "auto_multi" ∧
    (resolve_jumps files).mappings = bs.map (fun b => ⟨b.1, b.2, none⟩) ∧
    (resolve_jumps files).mappings.length = N ∧
    (((resolve_jumps files).mappings.map JumpMapping.files).flatten).Perm files ∧
    (∀ f ∈ files, (((resolve_jumps files).mappings.map JumpMapping.files).flatten).count f
      = 1) := by
  have hne1 : ¬((qrUuidList files).length = 1 ∧ count_freefall_segments files = 1) := by
    rintro ⟨e, _⟩; omega
  have hcase : (qrUuidList files).length = count_freefall_segments files ∧
      1 < (qrUuidList files).length := by omega
  have hres : (resolve_jumps files).mappings = map_qr_to_freefalls files := by
    simp only [resolve_jumps, if_neg hne1, if_pos hcase]
  have hstatus : (resolve_jumps files).status = "resolved" := by
    simp only [resolve_jumps, if_neg hne1, if_pos hcase]
  have htype : (resolve_jumps files).resolution_type = "auto_multi" := by
    simp only [resolve_jumps, if_neg hne1, if_pos hcase]
  obtain ⟨b₁, bs', rfl⟩ : ∃ b₁ bs', bs = b₁ :: bs' := by
    cases bs with
    | nil => simp at hN; omega
    | cons x xs => exact ⟨x, xs, rfl⟩
  obtain ⟨f₀, g', hb2, hf₀, hg'⟩ := hblocks b₁ (by simp)
  have hmap : map_qr_to_freefalls files
      = (b₁ :: bs').map (fun b => ⟨b.1, b.2, none⟩) := by
    unfold map_qr_to_freefalls
    rw [hsort, show (((b₁ :: bs').map Prod.snd).flatten)
        = (f₀ :: (g' ++ ((bs'.map Prod.snd).flatten))) by simp [hb2]]
    simp only [map_go, hf₀, ne_eq, Option.some.injEq, reduceCtorEq, not_false_eq_true,
      if_pos, reduceIte]
    rw [map_go_blocks bs' b₁.1 [f₀] g' (by simp) hg'
      (fun x hx => hblocks x (by simp [hx])) hchain]
    simp [hb2]
  have hflatten : ((map_qr_to_freefalls files).map JumpMapping.files).flatten
      = sortFiles files := by
    rw [hmap, hsort, List.map_map]
    rfl
  have hperm : (((resolve_jumps files).mappings.map JumpMapping.files).flatten).Perm files := by
    rw [hres, hflatten]
    exact List.mergeSort_perm files _
  refine ⟨hstatus, htype, by rw [hres, hmap], ?_, hperm, ?_⟩
  · rw [hres, hmap]
    simpa using hN
  · intro f hf
    rw [hperm.count_eq]
    exact List.count_eq_one_of_mem (hts.of_map _) hf

/-- C2 witness: the amended partition theorem applied to a concrete batch
of two marker blocks. -/
theorem claim_C2_witness :
    (resolve_jumps [⟨some "A", "freefall", some 1, 0, none, "p1", "n1"⟩,
        ⟨none, "canopy", some 2, 0, none, "p2", "n2"⟩,
        ⟨some "B", "freefall", some 3, 0, none, "p3", "n3"⟩]).status = "resolved" ∧
    (resolve_jumps [⟨some "A", "freefall", some 1, 0, none, "p1", "n1"⟩,
        ⟨none, "canopy", some 2, 0, none, "p2", "n2"⟩,
        ⟨some "B", "freefall", some 3, 0, none, "p3", "n3"⟩]).resolution_type
      = "auto_multi" ∧
    (resolve_jumps [⟨some "A", "freefall", some 1, 0, none, "p1", "n1"⟩,
        ⟨none, "canopy", some 2, 0, none, "p2", "n2"⟩,
        ⟨some "B", "freefall", some 3, 0, none, "p3", "n3"⟩]).mappings
      = [⟨"A", [⟨some "A", "freefall", some 1, 0, none, "p1", "n1"⟩,
              ⟨none, "canopy", some 2, 0, none, "p2", "n2"⟩], none⟩,
         ⟨"B", [⟨some "B", "freefall", some 3, 0, none, "p3", "n3"⟩], none⟩] ∧
    (resolve_jumps [⟨some "A", "freefall", some 1, 0, none, "p1", "n1"⟩,
        ⟨none, "canopy", some 2, 0, none, "p2", "n2"⟩,
        ⟨some "B", "freefall", some 3, 0, none, "p3", "n3"⟩]).mappings.length = 2 := by
  have h := claim_C2
    [⟨some "A", "freefall", some 1, 0, none, "p1", "n1"⟩,
     ⟨none, "canopy", some 2, 0, none, "p2", "n2"⟩,
     ⟨some "B", "freefall", some 3, 0, none, "p3", "n3"⟩]
    [("A", [⟨some "A", "freefall", some 1, 0, none, "p1", "n1"⟩,
            ⟨none, "canopy", some 2, 0, none, "p2", "n2"⟩]),
     ("B", [⟨some "B", "freefall", some 3, 0, none, "p3", "n3"⟩])] 2
    (by norm_num [sortFiles, sortKey, List.mergeSort])
    (by
      intro b hb
      simp only [List.mem_cons, List.not_mem_nil, or_false] at hb
      rcases hb with rfl | rfl
      · exact ⟨⟨some "A", "freefall", some 1, 0, none, "p1", "n1"⟩,
          [⟨none, "canopy", some 2, 0, none, "p2", "n2"⟩], rfl, rfl, by
            intro f hf
            simp only [List.mem_singleton] at hf
            subst hf
            right
            rfl⟩
      · exact ⟨⟨some "B", "freefall", some 3, 0, none, "p3", "n3"⟩, [], rfl, rfl, by
          intro f hf
          simp at hf⟩)
    (by refine List.chain'_cons.mpr ⟨?_, by simp⟩; decide)
    rfl (by norm_num) rfl
    (by norm_num [count_freefall_segments, sortFiles, List.mergeSort, count_go,
      sortKey] <;> decide)
    (by norm_num [sortKey])
  exact ⟨h.1, h.2.1, h.2.2.1, h.2.2.2.1⟩

/-- Moving a list of files that all exist and never fail succeeds and
updates every record's folder and path fields. -/
theorem move_go_all (env : MoveEnv) (fn : String) :
    ∀ files : List VideoFile,
      (∀ f ∈ files, env.exists_src f = true ∧ env.move_fails f = false) →
      move_files_go env fn files = (true, files.map (movedFile fn)) := by
  intro files
  induction files with
  | nil => intro _; rfl
  | cons f fs ih =>
    intro h
    obtain ⟨he, hm⟩ := h f (by simp)
    simp only [move_files_go, he, hm, reduceIte, Bool.false_eq_true, List.map_cons]
    rw [ih (fun x hx => h x (by simp [hx]))]
    simp [movedFile]

/-- Moving a list containing a file whose source exists and whose move
fails reports failure. -/
theorem move_go_fail (env : MoveEnv) (fn : String) :
    ∀ files : List VideoFile,
      (∃ f ∈ files, env.exists_src f = true ∧ env.move_fails f = true) →
      (move_files_go env fn files).1 = false := by
  intro files
  induction files with
  | nil => rintro ⟨f, hf, _⟩; simp at hf
  | cons f fs ih =>
    rintro ⟨g, hg, hge, hgm⟩
    rcases List.mem_cons.mp hg with rfl | hg
    · simp only [move_files_go, hge, hgm, reduceIte]
    · by_cases he : env.exists_src f = true
      · by_cases hm : env.move_fails f = true
        · simp only [move_files_go, he, hm, reduceIte]
        · simp only [move_files_go, he, reduceIte, Bool.not_eq_true] at hm ⊢
          rw [hm]
          simp only [Bool.false_eq_true, reduceIte]
          exact ih ⟨g, hg, hge, hgm⟩
      · simp only [move_files_go, Bool.not_eq_true] at he ⊢
        rw [he]
        simp only [Bool.false_eq_true, reduceIte]
        exact ih ⟨g, hg, hge, hgm⟩

/-- The execution loop over a prefix of fully-movable mappings followed by
a failing mapping aborts with the prefix moved and everything from the
failing mapping on untouched apart from its partial in-loop updates. -/
theorem exec_go_abort (env : MoveEnv) (cfp : String → Option String)
    (mf : JumpMapping) (post : List JumpMapping)
    (hbad : ∃ f ∈ mf.files, env.exists_src f = true ∧ env.move_fails f = true) :
    ∀ (pre : List JumpMapping) (acc : Option String),
      (∀ m ∈ pre, ∀ f ∈ m.files, env.exists_src f = true ∧ env.move_fails f = false) →
      execute_go env cfp acc (pre ++ mf :: post)
        = (none, pre.map (fun m =>
            { m with
              files := m.files.map (movedFile (get_folder_name cfp m.workload_uuid))
              folder_name := some (get_folder_name cfp m.workload_uuid) })
          ++ ({ mf with files := (move_files_to_workload env cfp mf.files mf.workload_uuid).2 }
              :: post)) := by
  intro pre
  induction pre with
  | nil =>
    intro acc _
    have hfail : (move_files_go env (get_folder_name cfp mf.workload_uuid) mf.files).1
        = false := move_go_fail env _ mf.files hbad
    simp only [List.nil_append, execute_go, move_files_to_workload, hfail,
      Bool.false_eq_true, reduceIte, List.map_nil]
  | cons m pre ih =>
    intro acc hgood
    have hall := move_go_all env (get_folder_name cfp m.workload_uuid) m.files
      (hgood m (by simp))
    simp only [List.cons_append, execute_go, move_files_to_workload, hall, reduceIte,
      List.append_eq]
    rw [ih _ (fun x hx => hgood x (by simp [hx]))]
    simp [move_files_to_workload]

/-- C7: execution moves files only for a resolved result (anything else
returns failure with the records untouched); and when some mapping's move
fails, the whole execution returns failure while the mappings moved before
the failure keep their updated folder and path fields — no rollback. -/
theorem claim_C7 (env : MoveEnv) (cfp : String → Option String) (res : ResolutionResult) :
    (res.status ≠ "resolved" → execute_resolution env cfp res = (none, res.mappings)) ∧
    (∀ pre mf post,
      res.status = "resolved" →
      res.mappings = pre ++ mf :: post →
      (∀ m ∈ pre, ∀ f ∈ m.files, env.exists_src f = true ∧ env.move_fails f = false) →
      (∃ f ∈ mf.files, env.exists_src f = true ∧ env.move_fails f = true) →
      (execute_resolution env cfp res).1 = none ∧
      (execute_resolution env cfp res).2
        = pre.map (fun m =>
            { m with
              files := m.files.map (movedFile (get_folder_name cfp m.workload_uuid))
              folder_name := some (get_folder_name cfp m.workload_uuid) })
          ++ ({ mf with files := (move_files_to_workload env cfp mf.files mf.workload_uuid).2 }
              :: post) ∧
      (∀ m' ∈ (execute_resolution env cfp res).2.take pre.length, ∀ f' ∈ m'.files,
        f'.current_folder_uuid = some (get_folder_name cfp m'.workload_uuid) ∧
        f'.filepath
          = get_folder_name cfp m'.workload_uuid ++ "/" ++ f'.original_filename)) := by
  constructor
  · intro h
    rw [execute_resolution, if_pos h]
  · intro pre mf post hst hmaps hgood hbad
    have hexec : execute_resolution env cfp res
        = execute_go env cfp none res.mappings := by
      rw [execute_resolution, if_neg (by simp [hst])]
    have habort := exec_go_abort env cfp mf post hbad pre none hgood
    rw [hmaps] at hexec
    rw [hexec, habort]
    refine ⟨rfl, rfl, ?_⟩
    intro m' hm' f' hf'
    have hlen : pre.length
        ≤ (pre.map (fun m : JumpMapping =>
            { m with
              files := m.files.map (movedFile (get_folder_name cfp m.workload_uuid))
              folder_name := some (get_folder_name cfp m.workload_uuid) })).length := by
      simp
    rw [List.take_append_of_le_length hlen, List.take_of_length_le (by simp)] at hm'
    obtain ⟨m, _, rfl⟩ := List.mem_map.mp hm'
    simp only at hf'
    obtain ⟨f, _, rfl⟩ := List.mem_map.mp hf'
    exact ⟨rfl, rfl⟩

/-- C7 witness: a non-resolved result moves nothing, and a two-mapping
resolved batch whose second mapping contains a failing file aborts with
only the first mapping moved. -/
theorem claim_C7_witness :
    execute_resolution ⟨fun _ => true, fun f => f.original_filename == "bad"⟩ (fun _ => none)
        ⟨"needs_manual", "ambiguous", none,
          [⟨"W1", [⟨none, "freefall", some 1, 0, none, "old/good", "good"⟩], none⟩,
           ⟨"W2", [⟨none, "canopy", some 2, 0, none, "old/bad", "bad"⟩], none⟩], [], 0⟩
      = (none, [⟨"W1", [⟨none, "freefall", some 1, 0, none, "old/good", "good"⟩], none⟩,
           ⟨"W2", [⟨none, "canopy", some 2, 0, none, "old/bad", "bad"⟩], none⟩]) ∧
    (execute_resolution ⟨fun _ => true, fun f => f.original_filename == "bad"⟩ (fun _ => none)
        ⟨"resolved", "auto_multi", none,
          [⟨"W1", [⟨none, "freefall", some 1, 0, none, "old/good", "good"⟩], none⟩,
           ⟨"W2", [⟨none, "canopy", some 2, 0, none, "old/bad", "bad"⟩], none⟩],
          ["W1", "W2"], 2⟩).1 = none ∧
    (execute_resolution ⟨fun _ => true, fun f => f.original_filename == "bad"⟩ (fun _ => none)
        ⟨"resolved", "auto_multi", none,
          [⟨"W1", [⟨none, "freefall", some 1, 0, none, "old/good", "good"⟩], none⟩,
           ⟨"W2", [⟨none, "canopy", some 2, 0, none, "old/bad", "bad"⟩], none⟩],
          ["W1", "W2"], 2⟩).2
      = [⟨"W1", [⟨none, "freefall", some 1, 0, some "W1", "W1/good", "good"⟩], some "W1"⟩,
         ⟨"W2", [⟨none, "canopy", some 2, 0, none, "old/bad", "bad"⟩], none⟩] := by
  have h1 := (claim_C7 ⟨fun _ => true, fun f => f.original_filename == "bad"⟩ (fun _ => none)
    ⟨"needs_manual", "ambiguous", none,
      [⟨"W1", [⟨none, "freefall", some 1, 0, none, "old/good", "good"⟩], none⟩,
       ⟨"W2", [⟨none, "canopy", some 2, 0, none, "old/bad", "bad"⟩], none⟩], [], 0⟩).1
    (by simp)
  have h2 := (claim_C7 ⟨fun _ => true, fun f => f.original_filename == "bad"⟩ (fun _ => none)
    ⟨"resolved", "auto_multi", none,
      [⟨"W1", [⟨none, "freefall", some 1, 0, none, "old/good", "good"⟩], none⟩,
       ⟨"W2", [⟨none, "canopy", some 2, 0, none, "old/bad", "bad"⟩], none⟩],
      ["W1", "W2"], 2⟩).2
    [⟨"W1", [⟨none, "freefall", some 1, 0, none, "old/good", "good"⟩], none⟩]
    ⟨"W2", [⟨none, "canopy", some 2, 0, none, "old/bad", "bad"⟩], none⟩ [] rfl rfl
    (by
      intro m hm f hf
      simp only [List.mem_singleton] at hm
      subst hm
      simp only [List.mem_singleton] at hf
      subst hf
      exact ⟨rfl, rfl⟩)
    ⟨⟨none, "canopy", some 2, 0, none, "old/bad", "bad"⟩, by simp, rfl, rfl⟩
  refine ⟨h1, h2.1, ?_⟩
  rw [h2.2.1]
  simp [movedFile, get_folder_name, move_files_to_workload, move_files_go]

/-- Number of coarse samples below the duration: the while loop from t in
steps of C produces exactly the ceiling of (D - t)/C timestamps. -/
theorem coarse_loop_length (D C : ℚ) (hC : 0 < C) :
    ∀ (n : ℕ) (t : ℚ), (⌈(D - t) / C⌉).toNat = n → (coarse_loop D C t).length = n := by
  intro n
  induction n using Nat.strong_induction_on with
  | _ n ih =>
    intro t hn
    rw [coarse_loop]
    by_cases h : 0 < C ∧ t < D
    · rw [dif_pos h]
      simp only [List.length_cons]
      have hdiv : (D - (t + C)) / C = (D - t) / C - 1 := by
        field_simp
        ring
      have hpos : (0:ℚ) < (D - t) / C := div_pos (by linarith [h.2]) hC
      have hceil : 0 < ⌈(D - t) / C⌉ := Int.ceil_pos.mpr hpos
      have hn1 : 1 ≤ n := by omega
      have hm : (⌈(D - (t + C)) / C⌉).toNat = n - 1 := by
        rw [hdiv, Int.ceil_sub_one]
        omega
      rw [ih (n - 1) (by omega) (t + C) hm]
      omega
    · rw [dif_neg h]
      push_neg at h
      have hDt : D ≤ t := h hC
      have hle : (D - t) / C ≤ 0 :=
        div_nonpos_iff.mpr (Or.inr ⟨by linarith, le_of_lt hC⟩)
      have : ⌈(D - t) / C⌉ ≤ 0 := Int.ceil_le.mpr (by exact_mod_cast hle)
      simp only [List.length_nil]
      omega

/-- The coarse pass emits either exactly ceiling(D/C) samples or one more
(the extra near-end sample). -/
theorem coarse_timestamps_length (D C : ℚ) (hC : 0 < C) :
    (coarse_timestamps D C).length = (⌈D / C⌉).toNat ∨
    (coarse_timestamps D C).length = (⌈D / C⌉).toNat + 1 := by
  have hlen : (coarse_loop D C 0).length = (⌈D / C⌉).toNat := by
    have h := coarse_loop_length D C hC (⌈(D - 0) / C⌉).toNat 0 rfl
    simpa using h
  unfold coarse_timestamps
  cases hgl : (coarse_loop D C 0).getLast? with
  | none => left; simpa [hgl] using hlen
  | some last =>
    by_cases hlt : last < D - 1
    · right
      simp only [hgl, hlt, reduceIte, List.length_append, List.length_cons,
        List.length_nil]
      omega
    · left
      simpa [hgl, hlt] using hlen

/-- Adjacent coarse samples of one constant category yield no transition
windows. -/
theorem transitionsOf_eq_nil (k : String) (rs : List (ℚ × String))
    (h : ∀ p ∈ rs, p.2 = k) : transitionsOf rs = [] := by
  unfold transitionsOf
  rw [List.filterMap_eq_nil_iff]
  intro p hp
  have h1 : p.1 ∈ rs := (List.of_mem_zip hp).1
  have h2 : p.2 ∈ rs := List.mem_of_mem_tail (List.of_mem_zip hp).2
  simp [h p.1 h1, h p.2 h2]

/-- C9: for a positive duration whose coarse samples all receive the same
category, the adaptive classification returns exactly the coarse samples —
ceiling(D/C) timestamps, possibly plus one near-end extra — independent of
the fine interval, which contributes nothing. -/
theorem claim_C9 (cat : ℚ → String) (D C F : ℚ) (hD : 0 < D) (hC : 0 < C)
    (hconst : ∀ t ∈ coarse_timestamps D C, cat t = cat 0) :
    (classify_video_adaptive cat D C F).length = (coarse_timestamps D C).length ∧
    ((coarse_timestamps D C).length = (⌈D / C⌉).toNat ∨
     (coarse_timestamps D C).length = (⌈D / C⌉).toNat + 1) := by
  constructor
  · unfold classify_video_adaptive
    rw [if_neg (by linarith)]
    have htrans : transitionsOf ((coarse_timestamps D C).map fun t => (t, cat t)) = [] := by
      apply transitionsOf_eq_nil (cat 0)
      intro p hp
      obtain ⟨t, ht, rfl⟩ := List.mem_map.mp hp
      exact hconst t ht
    simp only [htrans]
    simp [fine_stamps, List.length_mergeSort]
  · exact coarse_timestamps_length D C hC

/-- C9 witness: a constant classifier over a forty-second file sampled at
ten-second intervals. -/
theorem claim_C9_witness :
    (0:ℚ) < 40 ∧ (0:ℚ) < 10 ∧
    (classify_video_adaptive (fun _ => "freefall") 40 10 1).length
      = (coarse_timestamps 40 10).length ∧
    ((coarse_timestamps 40 10).length = (⌈(40:ℚ) / 10⌉).toNat ∨
     (coarse_timestamps 40 10).length = (⌈(40:ℚ) / 10⌉).toNat + 1) := by
  have h := claim_C9 (fun _ => "freefall") 40 10 1 (by norm_num) (by norm_num)
    (fun t _ => rfl)
  exact ⟨by norm_num, by norm_num, h.1, h.2⟩

/-- The selection loop returns its seed or one of the tallied labels. -/
theorem selectDominant_cases :
    ∀ (l : List (String × ℚ)) (b : String × ℚ),
      selectDominant l b = b.1 ∨ selectDominant l b ∈ l.map Prod.fst := by
  intro l
  induction l with
  | nil => intro b; exact Or.inl rfl
  | cons q rest ih =>
    intro b
    obtain ⟨c, d⟩ := q
    obtain ⟨bn, bd⟩ := b
    simp only [selectDominant, List.map_cons]
    split_ifs with h1 h2 h3
    · rcases ih (c, d) with h | h
      · exact Or.inr (h ▸ List.mem_cons_self c _)
      · exact Or.inr (List.mem_cons_of_mem _ h)
    · rcases ih (c, d) with h | h
      · exact Or.inr (h ▸ List.mem_cons_self c _)
      · exact Or.inr (List.mem_cons_of_mem _ h)
    · rcases ih (bn, bd) with h | h
      · exact Or.inl h
      · exact Or.inr (List.mem_cons_of_mem _ h)
    · rcases ih (bn, bd) with h | h
      · exact Or.inl h
      · exact Or.inr (List.mem_cons_of_mem _ h)

/-- The selection loop returns a label whose priority dominates the seed
and every tallied label. -/
theorem selectDominant_ge :
    ∀ (l : List (String × ℚ)) (b : String × ℚ),
      priority b.1 ≤ priority (selectDominant l b) ∧
      ∀ p ∈ l, priority p.1 ≤ priority (selectDominant l b) := by
  intro l
  induction l with
  | nil => intro b; exact ⟨le_refl _, by simp⟩
  | cons q rest ih =>
    intro b
    obtain ⟨c, d⟩ := q
    obtain ⟨bn, bd⟩ := b
    simp only [selectDominant]
    split_ifs with h1 h2 h3
    · obtain ⟨hb, hrest⟩ := ih (c, d)
      refine ⟨le_trans (le_of_lt h1) hb, ?_⟩
      intro p hp
      rcases List.mem_cons.mp hp with rfl | hp
      · exact hb
      · exact hrest p hp
    · obtain ⟨hb, hrest⟩ := ih (c, d)
      refine ⟨le_trans (le_of_eq h2.symm) hb, ?_⟩
      intro p hp
      rcases List.mem_cons.mp hp with rfl | hp
      · exact hb
      · exact hrest p hp
    · obtain ⟨hb, hrest⟩ := ih (bn, bd)
      refine ⟨hb, ?_⟩
      intro p hp
      rcases List.mem_cons.mp hp with rfl | hp
      · exact le_trans (le_of_eq h2) hb
      · exact hrest p hp
    · obtain ⟨hb, hrest⟩ := ih (bn, bd)
      have hb' : priority bn ≤ priority (selectDominant rest (bn, bd)) := hb
      refine ⟨hb, ?_⟩
      intro p hp
      rcases List.mem_cons.mp hp with rfl | hp
      · have hgoal : priority c ≤ priority (selectDominant rest (bn, bd)) := by omega
        exact hgoal
      · exact hrest p hp

/-- Key membership after one duration upsert. -/
theorem mem_keys_addDuration (acc : List (String × ℚ)) (c x : String) (d : ℚ) :
    x ∈ (addDuration acc c d).map Prod.fst ↔ x ∈ acc.map Prod.fst ∨ x = c := by
  induction acc with
  | nil => simp [addDuration]
  | cons p rest ih =>
    obtain ⟨c', d'⟩ := p
    by_cases h : c' = c
    · subst h
      simp only [addDuration, reduceIte, List.map_cons, List.mem_cons]
      tauto
    · simp only [addDuration, h, reduceIte, List.map_cons, List.mem_cons, ih]
      tauto

/-- Key membership of the accumulated duration table. -/
theorem mem_keys_durations_fold (segs : List VideoSegment) :
    ∀ (acc : List (String × ℚ)) (x : String),
      (x ∈ (segs.foldl
          (fun acc s => addDuration acc s.classification (s.end_time - s.start_time))
          acc).map Prod.fst
        ↔ x ∈ acc.map Prod.fst ∨ x ∈ segs.map VideoSegment.classification) := by
  induction segs with
  | nil => intro acc x; simp
  | cons s rest ih =>
    intro acc x
    simp only [List.foldl_cons, List.map_cons, List.mem_cons]
    rw [ih, mem_keys_addDuration]
    tauto

/-- Keys of the duration table are exactly the labels present. -/
theorem mem_keys_durationsOf (segs : List VideoSegment) (x : String) :
    x ∈ (durationsOf segs).map Prod.fst ↔ x ∈ segs.map VideoSegment.classification := by
  unfold durationsOf
  rw [mem_keys_durations_fold]
  simp

/-- On the canonical vocabulary, priority is injective. -/
theorem priority_inj_canonical :
    ∀ a ∈ canonicalLabels, ∀ b ∈ canonicalLabels, priority a = priority b → a = b := by
  decide

/-- The dominant label of a non-empty canonical segment list is present
and of maximal priority among the present labels. -/
theorem dominant_present_max (segs : List VideoSegment) (hne : segs ≠ [])
    (hcan : ∀ s ∈ segs, s.classification ∈ canonicalLabels) :
    calculate_dominant segs ∈ segs.map VideoSegment.classification ∧
    (∀ s ∈ segs, priority s.classification ≤ priority (calculate_dominant segs)) ∧
    calculate_dominant segs ∈ canonicalLabels := by
  obtain ⟨s₀, rest, rfl⟩ : ∃ a l, segs = a :: l := by
    cases segs with
    | nil => exact absurd rfl hne
    | cons a l => exact ⟨a, l, rfl⟩
  have hdef : calculate_dominant (s₀ :: rest)
      = selectDominant (durationsOf (s₀ :: rest)) ("unknown", 0) := rfl
  have hmax : ∀ s ∈ s₀ :: rest,
      priority s.classification ≤ priority (calculate_dominant (s₀ :: rest)) := by
    intro s hs
    have hkey : s.classification ∈ (durationsOf (s₀ :: rest)).map Prod.fst :=
      (mem_keys_durationsOf _ _).mpr (List.mem_map_of_mem _ hs)
    obtain ⟨p, hp, hfst⟩ := List.mem_map.mp hkey
    have := (selectDominant_ge (durationsOf (s₀ :: rest)) ("unknown", 0)).2 p hp
    rw [hdef]
    rw [hfst] at this
    exact this
  rcases selectDominant_cases (durationsOf (s₀ :: rest)) ("unknown", 0) with h | h
  · have hu : calculate_dominant (s₀ :: rest) = "unknown" := by rw [hdef, h]
    have h0 : priority s₀.classification ≤ 0 := by
      have := hmax s₀ (by simp)
      rwa [hu] at this
    have hs₀ : s₀.classification = "unknown" := by
      refine priority_inj_canonical _ (hcan s₀ (by simp)) _ (by decide) ?_
      have h00 : priority s₀.classification = 0 := by omega
      rw [h00]
      rfl
    refine ⟨?_, hmax, by rw [hu]; decide⟩
    rw [hu, ← hs₀]
    exact List.mem_map_of_mem _ (by simp)
  · have hmem : calculate_dominant (s₀ :: rest)
        ∈ (s₀ :: rest).map VideoSegment.classification := by
      rw [hdef]
      exact (mem_keys_durationsOf _ _).mp h
    refine ⟨hmem, hmax, ?_⟩
    obtain ⟨s, hs, hsc⟩ := List.mem_map.mp hmem
    rw [← hsc]
    exact hcan s hs

/-- C5: for a non-empty segment list over the canonical vocabulary, the
dominant label is a present label of maximal priority in the order
freefall, canopy, flight, ground_before, ground_after, qr_code, unknown,
and the selection is invariant under permutation of the segment list. -/
theorem claim_C5 (segs segs' : List VideoSegment) (hne : segs ≠ [])
    (hcan : ∀ s ∈ segs, s.classification ∈ canonicalLabels)
    (hperm : segs.Perm segs') :
    calculate_dominant segs ∈ segs.map VideoSegment.classification ∧
    (∀ s ∈ segs, priority s.classification ≤ priority (calculate_dominant segs)) ∧
    calculate_dominant segs = calculate_dominant segs' := by
  obtain ⟨hm, hmax, hcanr⟩ := dominant_present_max segs hne hcan
  have hne' : segs' ≠ [] := by
    intro h
    exact hne (List.Perm.eq_nil (h ▸ hperm))
  have hcan' : ∀ s ∈ segs', s.classification ∈ canonicalLabels :=
    fun s hs => hcan s (hperm.mem_iff.mpr hs)
  obtain ⟨hm', hmax', hcanr'⟩ := dominant_present_max segs' hne' hcan'
  have hpm := hperm.map VideoSegment.classification
  have hmm : calculate_dominant segs' ∈ segs.map VideoSegment.classification :=
    hpm.mem_iff.mpr hm'
  have hmm2 : calculate_dominant segs ∈ segs'.map VideoSegment.classification :=
    hpm.mem_iff.mp hm
  have h1 : priority (calculate_dominant segs') ≤ priority (calculate_dominant segs) := by
    obtain ⟨s, hs, hsc⟩ := List.mem_map.mp hmm
    have := hmax s hs
    rwa [hsc] at this
  have h2 : priority (calculate_dominant segs) ≤ priority (calculate_dominant segs') := by
    obtain ⟨s, hs, hsc⟩ := List.mem_map.mp hmm2
    have := hmax' s hs
    rwa [hsc] at this
  exact ⟨hm, hmax, priority_inj_canonical _ hcanr _ hcanr' (le_antisymm h2 h1)⟩

/-- C5 witness: the dominant label of a flight-freefall list is freefall
and is unchanged by swapping the two segments. -/
theorem claim_C5_witness :
    calculate_dominant [⟨0, 5, "flight", 1, 0⟩, ⟨5, 15, "freefall", 1, 0⟩]
        ∈ ([⟨0, 5, "flight", 1, 0⟩, ⟨5, 15, "freefall", 1, 0⟩] : List VideoSegment).map
          VideoSegment.classification ∧
    calculate_dominant [⟨0, 5, "flight", 1, 0⟩, ⟨5, 15, "freefall", 1, 0⟩]
      = calculate_dominant [⟨5, 15, "freefall", 1, 0⟩, ⟨0, 5, "flight", 1, 0⟩] ∧
    calculate_dominant [⟨0, 5, "flight", 1, 0⟩, ⟨5, 15, "freefall", 1, 0⟩] = "freefall" := by
  have h := claim_C5 [⟨0, 5, "flight", 1, 0⟩, ⟨5, 15, "freefall", 1, 0⟩]
    [⟨5, 15, "freefall", 1, 0⟩, ⟨0, 5, "flight", 1, 0⟩]
    (by simp)
    (by
      intro s hs
      simp only [List.mem_cons, List.not_mem_nil, or_false] at hs
      rcases hs with rfl | rfl <;> decide)
    (List.Perm.swap _ _ _)
  refine ⟨h.1, h.2.2, ?_⟩
  norm_num [calculate_dominant, durationsOf, addDuration, selectDominant, priority]
  decide

/-- Dropping the first and last element commutes. -/
theorem tail_dropLast_comm {α : Type} (l : List α) : l.tail.dropLast = l.dropLast.tail := by
  cases l with
  | nil => rfl
  | cons a l =>
    cases l with
    | nil => rfl
    | cons b m => rfl

/-- Dropping the last element of a reversed list reverses the tail. -/
theorem dropLast_reverse_eq_reverse_tail {α : Type} (l : List α) :
    l.reverse.dropLast = l.tail.reverse := by
  have h := List.tail_reverse_eq_reverse_dropLast l.reverse
  rw [List.reverse_reverse] at h
  rw [h, List.reverse_reverse]

/-- Interior membership (all but first and last) is stable under list
reversal. -/
theorem mem_reverse_interior {α : Type} (l : List α) (s : α) :
    s ∈ l.reverse.tail.dropLast ↔ s ∈ l.tail.dropLast := by
  rw [List.tail_reverse_eq_reverse_dropLast, dropLast_reverse_eq_reverse_tail,
    List.mem_reverse, tail_dropLast_comm]

/-- Replacing two adjacent chain elements by one segment spanning both
preserves the contiguous-chain invariant, positivity, and the overall
start and end. -/
theorem span_merge_pair (A B : List VideoSegment) (x y z : VideoSegment)
    (hzs : z.start_time = x.start_time) (hze : z.end_time = y.end_time)
    (hc : List.Chain' meets (A ++ x :: y :: B))
    (hp : ∀ s ∈ A ++ x :: y :: B, s.start_time < s.end_time) :
    List.Chain' meets (A ++ z :: B) ∧
    (∀ s ∈ A ++ z :: B, s.start_time < s.end_time) ∧
    (∀ s ∈ (A ++ z :: B).head?, ∀ t ∈ (A ++ x :: y :: B).head?,
      s.start_time = t.start_time) ∧
    (∀ s ∈ (A ++ z :: B).getLast?, ∀ t ∈ (A ++ x :: y :: B).getLast?,
      s.end_time = t.end_time) := by
  obtain ⟨hcA, hcxy, hjunc⟩ := List.chain'_append.mp hc
  obtain ⟨hxy, hyB⟩ := List.chain'_cons.mp hcxy
  have hpx : x.start_time < x.end_time := hp x (by simp)
  have hpy : y.start_time < y.end_time := hp y (by simp)
  have hpz : z.start_time < z.end_time := by
    rw [hzs, hze]
    calc x.start_time < x.end_time := hpx
    _ = y.start_time := hxy
    _ < y.end_time := hpy
  refine ⟨?_, ?_, ?_, ?_⟩
  · rw [List.chain'_append]
    refine ⟨hcA, ?_, ?_⟩
    · cases B with
      | nil => simp
      | cons b B' =>
        rw [List.chain'_cons]
        refine ⟨?_, (List.chain'_cons.mp hyB).2⟩
        have hyb : meets y b := (List.chain'_cons.mp hyB).1
        unfold meets at hyb ⊢
        rw [hze, hyb]
    · intro u hu v hv
      simp only [List.head?_cons, Option.mem_some_iff] at hv
      subst hv
      have := hjunc u hu x (by simp)
      unfold meets at this ⊢
      rw [this, hzs]
  · intro s hs
    rcases List.mem_append.mp hs with hs | hs
    · exact hp s (List.mem_append.mpr (Or.inl hs))
    · rcases List.mem_cons.mp hs with rfl | hs
      · exact hpz
      · exact hp s (by simp [hs])
  · intro s hs t ht
    cases A with
    | nil =>
      simp only [List.nil_append, List.head?_cons, Option.mem_some_iff] at hs ht
      subst hs
      subst ht
      exact hzs
    | cons a A' =>
      simp only [List.cons_append, List.head?_cons, Option.mem_some_iff] at hs ht
      subst hs
      subst ht
      rfl
  · intro s hs t ht
    cases B with
    | nil =>
      have h1 : (A ++ [z]).getLast? = some z := List.getLast?_concat _
      have h2 : (A ++ [x, y]).getLast? = some y := by
        rw [show A ++ [x, y] = (A ++ [x]) ++ [y] by simp, List.getLast?_concat]
      rw [h1] at hs
      rw [h2] at ht
      simp only [Option.mem_some_iff] at hs ht
      subst hs
      subst ht
      exact hze
    | cons b B' =>
      have h1 : (A ++ z :: b :: B').getLast? = (b :: B').getLast? := by
        rw [List.getLast?_append, List.getLast?_cons_cons]
        cases hgl : (b :: B').getLast? with
        | none => simp at hgl
        | some w => rfl
      have h2 : (A ++ x :: y :: b :: B').getLast? = (b :: B').getLast? := by
        rw [List.getLast?_append, List.getLast?_cons_cons, List.getLast?_cons_cons]
        cases hgl : (b :: B').getLast? with
        | none => simp at hgl
        | some w => rfl
      rw [h1] at hs
      rw [h2] at ht
      cases hgl : (b :: B').getLast? with
      | none => simp [hgl] at hs
      | some w =>
        rw [hgl] at hs ht
        simp only [Option.mem_some_iff] at hs ht
        rw [← hs, ← ht]

/-- Variant of the pair-merge lemma that propagates the fixed overall
start and end. -/
theorem span_merge_pair' (S E : ℚ) (A B : List VideoSegment) (x y z : VideoSegment)
    (hzs : z.start_time = x.start_time) (hze : z.end_time = y.end_time)
    (hc : List.Chain' meets (A ++ x :: y :: B))
    (hp : ∀ s ∈ A ++ x :: y :: B, s.start_time < s.end_time)
    (hhead : ∀ s ∈ (A ++ x :: y :: B).head?, s.start_time = S)
    (hlast : ∀ s ∈ (A ++ x :: y :: B).getLast?, s.end_time = E) :
    List.Chain' meets (A ++ z :: B) ∧
    (∀ s ∈ A ++ z :: B, s.start_time < s.end_time) ∧
    (∀ s ∈ (A ++ z :: B).head?, s.start_time = S) ∧
    (∀ s ∈ (A ++ z :: B).getLast?, s.end_time = E) := by
  obtain ⟨h1, h2, h3, h4⟩ := span_merge_pair A B x y z hzs hze hc hp
  refine ⟨h1, h2, ?_, ?_⟩
  · intro s hs
    obtain ⟨t, ht⟩ : ∃ t, (A ++ x :: y :: B).head? = some t := by
      cases hg : (A ++ x :: y :: B).head? with
      | none =>
        rw [List.head?_eq_none_iff] at hg
        simp at hg
      | some t => exact ⟨t, rfl⟩
    rw [← hhead t (by rw [ht]; rfl)]
    exact h3 s hs t (by rw [ht]; rfl)
  · intro s hs
    obtain ⟨t, ht⟩ : ∃ t, (A ++ x :: y :: B).getLast? = some t := by
      cases hg : (A ++ x :: y :: B).getLast? with
      | none =>
        rw [List.getLast?_eq_none_iff] at hg
        simp at hg
      | some t => exact ⟨t, rfl⟩
    rw [← hlast t (by rw [ht]; rfl)]
    exact h4 s hs t (by rw [ht]; rfl)

/-- Main invariant of the merge loop: from a state whose flattened list
(reversed accumulator followed by the remaining input) is a contiguous
positive chain from S to E, with the accumulator free of adjacent equal
classifications and its interior segments at least minD long, the loop
returns a contiguous positive chain from S to E with no adjacent equal
classifications and all interior segments at least minD long. -/
theorem merge_go_spec (minD S E : ℚ) :
    ∀ (n : ℕ) (rest acc : List VideoSegment), rest.length ≤ n →
      acc ≠ [] →
      List.Chain' meets (acc.reverse ++ rest) →
      (∀ s ∈ acc.reverse ++ rest, s.start_time < s.end_time) →
      (∀ s ∈ (acc.reverse ++ rest).head?, s.start_time = S) →
      (∀ s ∈ (acc.reverse ++ rest).getLast?, s.end_time = E) →
      List.Chain' (fun a b => a.classification ≠ b.classification) acc →
      (∀ s ∈ acc.tail.dropLast, minD ≤ s.end_time - s.start_time) →
      (∀ h ∈ acc.head?, rest ≠ [] → acc.tail ≠ [] →
        minD ≤ h.end_time - h.start_time) →
      SegSpan (merge_go minD false acc rest) S E ∧
      List.Chain' (fun a b => a.classification ≠ b.classification)
        (merge_go minD false acc rest) ∧
      (∀ s ∈ (merge_go minD false acc rest).tail.dropLast,
        minD ≤ s.end_time - s.start_time) := by
  intro n
  induction n using Nat.strong_induction_on with
  | _ n ih =>
    intro rest acc hlen hacc hchain hpos hhead hlast hcc hint hhd
    obtain ⟨prev, acc', rfl⟩ : ∃ p a, acc = p :: a := by
      cases acc with
      | nil => exact absurd rfl hacc
      | cons p a => exact ⟨p, a, rfl⟩
    cases rest with
    | nil =>
      have hmg : merge_go minD false (prev :: acc') [] = (prev :: acc').reverse := by
        simp [merge_go]
      rw [hmg]
      simp only [List.append_nil] at hchain hpos hhead hlast
      refine ⟨⟨by simp, hchain, hpos, hhead, hlast⟩, ?_, ?_⟩
      · exact List.chain'_reverse.mpr (hcc.imp fun a b h => Ne.symm h)
      · intro s hs
        rw [mem_reverse_interior] at hs
        exact hint s hs
    | cons seg rest₁ =>
      have hjunc : prev.end_time = seg.start_time := by
        have h := (List.chain'_append.mp hchain).2.2 prev
          (by rw [List.getLast?_reverse]; rfl) seg rfl
        exact h
      have hpseg : seg.start_time < seg.end_time := hpos seg (by simp)
      have hpprev : prev.start_time < prev.end_time := hpos prev (by simp)
      have hL : (prev :: acc').reverse ++ seg :: rest₁
          = acc'.reverse ++ prev :: seg :: rest₁ := by simp
      cases rest₁ with
      | nil =>
        by_cases hcl : prev.classification = seg.classification
        · -- final segment with equal classification: extend the last
          -- emitted segment
          have hmg : merge_go minD false (prev :: acc') [seg]
              = ({ prev with end_time := seg.end_time,
                             confidence := (prev.confidence + seg.confidence) / 2 }
                  :: acc').reverse := by
            simp [merge_go, hcl]
          rw [hL] at hchain hpos hhead hlast
          obtain ⟨hc', hp', hh', hl'⟩ := span_merge_pair' S E acc'.reverse [] prev seg
            ({ prev with end_time := seg.end_time,
                         confidence := (prev.confidence + seg.confidence) / 2 }) rfl rfl
            hchain hpos hhead hlast
          have hL' : acc'.reverse
                ++ [{ prev with end_time := seg.end_time,
                                confidence := (prev.confidence + seg.confidence) / 2 }]
              = ({ prev with end_time := seg.end_time,
                             confidence := (prev.confidence + seg.confidence) / 2 }
                  :: acc').reverse := by simp
          rw [hL'] at hc' hp' hh' hl'
          rw [hmg]
          have hccnew : List.Chain' (fun a b => a.classification ≠ b.classification)
              ({ prev with end_time := seg.end_time,
                           confidence := (prev.confidence + seg.confidence) / 2 } :: acc') := by
            cases acc' with
            | nil => simp
            | cons q acc'' =>
              rw [List.chain'_cons] at hcc ⊢
              exact ⟨hcc.1, hcc.2⟩
          refine ⟨⟨by simp, hc', hp', hh', hl'⟩, ?_, ?_⟩
          · exact List.chain'_reverse.mpr (hccnew.imp fun a b h => Ne.symm h)
          · intro s hs
            rw [mem_reverse_interior] at hs
            exact hint s hs
        · -- final segment with different classification: append it
          have hmg : merge_go minD false (prev :: acc') [seg]
              = (seg :: prev :: acc').reverse := by
            simp [merge_go, hcl]
          have hL2 : (prev :: acc').reverse ++ [seg]
              = (seg :: prev :: acc').reverse := by simp
          rw [hL2] at hchain hpos hhead hlast
          rw [hmg]
          have hccnew : List.Chain' (fun a b => a.classification ≠ b.classification)
              (seg :: prev :: acc') :=
            List.chain'_cons.mpr ⟨fun h => hcl h.symm, hcc⟩
          refine ⟨⟨by simp, hchain, hpos, hhead, hlast⟩, ?_, ?_⟩
          · exact List.chain'_reverse.mpr (hccnew.imp fun a b h => Ne.symm h)
          · intro s hs
            rw [mem_reverse_interior] at hs
            cases acc' with
            | nil => simp at hs
            | cons q acc'' =>
              rcases List.mem_cons.mp (by simpa using hs) with rfl | hs'
              · exact hhd s rfl (by simp) (by simp)
              · exact hint s (by simpa using hs')
      | cons next rest' =>
        by_cases hshort : seg.end_time - seg.start_time < minD
        · by_cases habs : ¬ prev.classification = seg.classification ∧
              next.classification = seg.classification
          · -- short segment absorbed into the next one
            have hmg : merge_go minD false (prev :: acc') (seg :: next :: rest')
                = merge_go minD false (prev :: acc')
                    (⟨seg.start_time, next.end_time, next.classification,
                      (seg.confidence + next.confidence) / 2, 0⟩ :: rest') := by
              simp [merge_go, hshort, habs.1, habs.2]
            obtain ⟨hc', hp', hh', hl'⟩ := span_merge_pair' S E
              ((prev :: acc').reverse) rest' seg next
              (⟨seg.start_time, next.end_time, next.classification,
                (seg.confidence + next.confidence) / 2, 0⟩) rfl rfl
              hchain hpos hhead hlast
            rw [hmg]
            have hlen' : (⟨seg.start_time, next.end_time, next.classification,
                (seg.confidence + next.confidence) / 2, 0⟩ :: rest'
                : List VideoSegment).length ≤ n - 1 := by
              simp only [List.length_cons] at hlen ⊢
              omega
            exact ih (n - 1) (by simp only [List.length_cons] at hlen; omega) _ _ hlen' hacc hc' hp' hh' hl' hcc hint
              (fun h hh _ ht => hhd h hh (by simp) ht)
          · -- short segment merged into the previous one
            have hmg : merge_go minD false (prev :: acc') (seg :: next :: rest')
                = merge_go minD false
                    ({ prev with end_time := seg.end_time } :: acc')
                    (next :: rest') := by
              by_cases hcl1 : prev.classification = seg.classification
              · simp [merge_go, hshort, hcl1]
              · have hcl2 : ¬ next.classification = seg.classification :=
                  fun h => habs ⟨hcl1, h⟩
                simp [merge_go, hshort, hcl1, hcl2]
            rw [hL] at hchain hpos hhead hlast
            obtain ⟨hc', hp', hh', hl'⟩ := span_merge_pair' S E acc'.reverse
              (next :: rest') prev seg ({ prev with end_time := seg.end_time })
              rfl rfl hchain hpos hhead hlast
            have hL' : acc'.reverse
                  ++ { prev with end_time := seg.end_time } :: next :: rest'
                = ({ prev with end_time := seg.end_time } :: acc').reverse
                  ++ next :: rest' := by simp
            rw [hL'] at hc' hp' hh' hl'
            rw [hmg]
            have hccnew : List.Chain' (fun a b => a.classification ≠ b.classification)
                ({ prev with end_time := seg.end_time } :: acc') := by
              cases acc' with
              | nil => simp
              | cons q acc'' =>
                rw [List.chain'_cons] at hcc ⊢
                exact ⟨hcc.1, hcc.2⟩
            have hlen' : (next :: rest' : List VideoSegment).length ≤ n - 1 := by
              simp only [List.length_cons] at hlen ⊢
              omega
            refine ih (n - 1) (by simp only [List.length_cons] at hlen; omega) _ _ hlen' (by simp) hc' hp' hh' hl' hccnew
              hint ?_
            intro h hh _ ht
            simp only [List.head?_cons, Option.mem_some_iff] at hh
            subst hh
            have := hhd prev rfl (by simp) ht
            simp only
            linarith [hpseg, hjunc ▸ hpprev]
        · by_cases hcl : prev.classification = seg.classification
          · -- long segment with equal classification: extend the last
            -- emitted segment
            have hmg : merge_go minD false (prev :: acc') (seg :: next :: rest')
                = merge_go minD false
                    ({ prev with end_time := seg.end_time,
                                 confidence := (prev.confidence + seg.confidence) / 2 }
                      :: acc')
                    (next :: rest') := by
              simp [merge_go, hshort, hcl]
            rw [hL] at hchain hpos hhead hlast
            obtain ⟨hc', hp', hh', hl'⟩ := span_merge_pair' S E acc'.reverse
              (next :: rest') prev seg
              ({ prev with end_time := seg.end_time,
                           confidence := (prev.confidence + seg.confidence) / 2 })
              rfl rfl hchain hpos hhead hlast
            have hL' : acc'.reverse
                  ++ { prev with end_time := seg.end_time,
                                 confidence := (prev.confidence + seg.confidence) / 2 }
                    :: next :: rest'
                = ({ prev with end_time := seg.end_time,
                               confidence := (prev.confidence + seg.confidence) / 2 }
                    :: acc').reverse ++ next :: rest' := by simp
            rw [hL'] at hc' hp' hh' hl'
            rw [hmg]
            have hccnew : List.Chain' (fun a b => a.classification ≠ b.classification)
                ({ prev with end_time := seg.end_time,
                             confidence := (prev.confidence + seg.confidence) / 2 }
                  :: acc') := by
              cases acc' with
              | nil => simp
              | cons q acc'' =>
                rw [List.chain'_cons] at hcc ⊢
                exact ⟨hcc.1, hcc.2⟩
            have hlen' : (next :: rest' : List VideoSegment).length ≤ n - 1 := by
              simp only [List.length_cons] at hlen ⊢
              omega
            refine ih (n - 1) (by simp only [List.length_cons] at hlen; omega) _ _ hlen' (by simp) hc' hp' hh' hl' hccnew
              hint ?_
            intro h hh _ ht
            simp only [List.head?_cons, Option.mem_some_iff] at hh
            subst hh
            have := hhd prev rfl (by simp) ht
            simp only
            linarith [hpseg, hjunc ▸ hpprev]
          · -- long segment with different classification: append it
            have hmg : merge_go minD false (prev :: acc') (seg :: next :: rest')
                = merge_go minD false (seg :: prev :: acc') (next :: rest') := by
              simp [merge_go, hshort, hcl]
            have hL2 : (prev :: acc').reverse ++ seg :: next :: rest'
                = (seg :: prev :: acc').reverse ++ next :: rest' := by simp
            rw [hL2] at hchain hpos hhead hlast
            rw [hmg]
            have hccnew : List.Chain' (fun a b => a.classification ≠ b.classification)
                (seg :: prev :: acc') :=
              List.chain'_cons.mpr ⟨fun h => hcl h.symm, hcc⟩
            have hlen' : (next :: rest' : List VideoSegment).length ≤ n - 1 := by
              simp only [List.length_cons] at hlen ⊢
              omega
            refine ih (n - 1) (by simp only [List.length_cons] at hlen; omega) _ _ hlen' (by simp) hchain hpos hhead hlast
              hccnew ?_ ?_
            · intro s hs
              cases acc' with
              | nil => simp at hs
              | cons q acc'' =>
                rcases List.mem_cons.mp (by simpa using hs) with rfl | hs'
                · exact hhd s rfl (by simp) (by simp)
                · exact hint s (by simpa using hs')
            · intro h hh _ _
              simp only [List.head?_cons, Option.mem_some_iff] at hh
              subst hh
              exact not_lt.mp hshort

/-- Short-segment merging preserves the coverage span and yields a list
with no adjacent equal classifications whose interior segments all last at
least minD. -/
theorem merge_short_spec (minD S E : ℚ) (l : List VideoSegment) (h : SegSpan l S E) :
    SegSpan (merge_short_segments minD l) S E ∧
    List.Chain' (fun a b => a.classification ≠ b.classification)
      (merge_short_segments minD l) ∧
    (∀ s ∈ (merge_short_segments minD l).tail.dropLast,
      minD ≤ s.end_time - s.start_time) := by
  obtain ⟨hne, hchain, hpos, hhead, hlast⟩ := h
  unfold merge_short_segments
  by_cases hl : l.length ≤ 1
  · rw [if_pos hl]
    cases l with
    | nil => exact absurd rfl hne
    | cons a l' =>
      cases l' with
      | nil =>
        exact ⟨⟨hne, hchain, hpos, hhead, hlast⟩, by simp, by simp⟩
      | cons b l'' => simp at hl
  · rw [if_neg hl]
    obtain ⟨s0, s1, l'', rfl⟩ : ∃ a b m, l = a :: b :: m := by
      cases l with
      | nil => exact absurd rfl hne
      | cons a l' =>
        cases l' with
        | nil => simp at hl
        | cons b m => exact ⟨a, b, m, rfl⟩
    have hstep : merge_go minD true [] (s0 :: s1 :: l'')
        = merge_go minD false [s0] (s1 :: l'') := by
      simp [merge_go]
    rw [hstep]
    have hLL : ([s0] : List VideoSegment).reverse ++ s1 :: l'' = s0 :: s1 :: l'' := by
      simp
    apply merge_go_spec minD S E (s1 :: l'').length (s1 :: l'') [s0] le_rfl (by simp)
    · rw [hLL]; exact hchain
    · rw [hLL]; exact hpos
    · rw [hLL]; exact hhead
    · rw [hLL]; exact hlast
    · simp
    · simp
    · intro h _ _ ht
      exact absurd rfl ht

/-- If the accumulator head differs from the first remaining segment, the
remaining segments have pairwise distinct adjacent classifications, and
every remaining segment except the last is long enough, the merge loop
appends everything unchanged. -/
theorem merge_go_pass (minD : ℚ) :
    ∀ (rest acc : List VideoSegment),
      (∀ a ∈ acc.head?, ∀ b ∈ rest.head?, a.classification ≠ b.classification) →
      List.Chain' (fun a b => a.classification ≠ b.classification) rest →
      (∀ s ∈ rest.dropLast, minD ≤ s.end_time - s.start_time) →
      merge_go minD false acc rest = acc.reverse ++ rest := by
  intro rest
  induction rest with
  | nil => intro acc _ _ _; simp [merge_go]
  | cons seg rest₁ ih =>
    intro acc hhd hcc hdur
    cases rest₁ with
    | nil =>
      cases acc with
      | nil => simp [merge_go]
      | cons prev acc' =>
        have hne : ¬ prev.classification = seg.classification := hhd prev rfl seg rfl
        simp [merge_go, hne]
    | cons next rest' =>
      have hdseg : minD ≤ seg.end_time - seg.start_time := hdur seg (by simp)
      have hlt : ¬ seg.end_time - seg.start_time < minD := not_lt.mpr hdseg
      have hccs := List.chain'_cons.mp hcc
      have hcc01 : seg.classification ≠ next.classification := hccs.1
      have hdur' : ∀ s ∈ (next :: rest').dropLast, minD ≤ s.end_time - s.start_time := by
        intro s hs
        refine hdur s ?_
        cases rest' with
        | nil => simp at hs
        | cons c m => exact List.mem_cons_of_mem _ hs
      cases acc with
      | nil =>
        rw [show merge_go minD false [] (seg :: next :: rest')
            = merge_go minD false [seg] (next :: rest') from by simp [merge_go, hlt]]
        rw [ih [seg] (by
            intro a ha b hb
            simp only [List.head?_cons, Option.mem_some_iff] at ha hb
            subst ha
            subst hb
            exact hcc01) hccs.2 hdur']
        simp
      | cons prev acc' =>
        have hne : ¬ prev.classification = seg.classification := hhd prev rfl seg rfl
        rw [show merge_go minD false (prev :: acc') (seg :: next :: rest')
            = merge_go minD false (seg :: prev :: acc') (next :: rest') from by
          simp [merge_go, hlt, hne]]
        rw [ih (seg :: prev :: acc') (by
            intro a ha b hb
            simp only [List.head?_cons, Option.mem_some_iff] at ha hb
            subst ha
            subst hb
            exact hcc01) hccs.2 hdur']
        simp

/-- C4 counterexample: short-segment merging is not idempotent on an
arbitrary segment list; this list's third segment overlaps its second, and
the second application still changes the result. -/
theorem claim_C4_counterexample :
    merge_short_segments 3 (merge_short_segments 3 mergeCounterexample)
      ≠ merge_short_segments 3 mergeCounterexample := by
  have h1 : merge_short_segments 3 mergeCounterexample
      = [⟨0, 5, "flight", 1, 0⟩, ⟨5, 13/2, "freefall", 1, 0⟩,
         ⟨20, 30, "ground", 1, 0⟩] := by
    norm_num [mergeCounterexample, merge_short_segments, merge_go]
    simp
  have h2 : merge_short_segments 3
        [⟨0, 5, "flight", 1, 0⟩, ⟨5, 13/2, "freefall", 1, 0⟩,
         ⟨20, 30, "ground", 1, 0⟩]
      = [⟨0, 13/2, "flight", 1, 0⟩, ⟨20, 30, "ground", 1, 0⟩] := by
    norm_num [merge_short_segments, merge_go]
    simp
  rw [h1, h2]
  intro h
  have hlen := congrArg List.length h
  simp at hlen

/-- C4 (amended): on contiguous segment lists with positive durations —
each segment ends where the next begins, as the boundary-detection step
produces — short-segment merging is idempotent.  On arbitrary
(non-contiguous) lists it is not. -/
theorem claim_C4 (minD : ℚ) (l : List VideoSegment)
    (hchain : List.Chain' meets l)
    (hpos : ∀ s ∈ l, s.start_time < s.end_time) :
    merge_short_segments minD (merge_short_segments minD l)
      = merge_short_segments minD l := by
  by_cases hl : l.length ≤ 1
  · have h1 : merge_short_segments minD l = l := by
      unfold merge_short_segments
      rw [if_pos hl]
    rw [h1, h1]
  · obtain ⟨s0, l₁, rfl⟩ : ∃ a m, l = a :: m := by
      cases l with
      | nil => simp at hl
      | cons a m => exact ⟨a, m, rfl⟩
    obtain ⟨t, ht⟩ : ∃ t, (s0 :: l₁).getLast? = some t := by
      cases hg : (s0 :: l₁).getLast? with
      | none => rw [List.getLast?_eq_none_iff] at hg; simp at hg
      | some t => exact ⟨t, rfl⟩
    obtain ⟨hspan, hcc, hintr⟩ := merge_short_spec minD s0.start_time t.end_time
      (s0 :: l₁)
      ⟨by simp, hchain, hpos, by simp, by
        intro s hs
        rw [ht] at hs
        simp only [Option.mem_some_iff] at hs
        rw [← hs]⟩
    by_cases hr : (merge_short_segments minD (s0 :: l₁)).length ≤ 1
    · conv_lhs => rw [merge_short_segments]
      rw [if_pos hr]
    · obtain ⟨r0, r1, r'', hreq⟩ : ∃ a b m,
          merge_short_segments minD (s0 :: l₁) = a :: b :: m := by
        cases hrr : merge_short_segments minD (s0 :: l₁) with
        | nil => rw [hrr] at hr; simp at hr
        | cons a m =>
          cases m with
          | nil => rw [hrr] at hr; simp at hr
          | cons b m' => exact ⟨a, b, m', rfl⟩
      rw [hreq] at hcc hintr
      conv_lhs => rw [merge_short_segments, hreq]
      rw [if_neg (by rw [hreq] at hr; simpa using hr)]
      have hstep : merge_go minD true [] (r0 :: r1 :: r'')
          = merge_go minD false [r0] (r1 :: r'') := by
        simp [merge_go]
      rw [hstep]
      rw [merge_go_pass minD (r1 :: r'') [r0] (by
          intro a ha b hb
          simp only [List.head?_cons, Option.mem_some_iff] at ha hb
          subst ha
          subst hb
          exact (List.chain'_cons.mp hcc).1)
        (List.chain'_cons.mp hcc).2 hintr]
      rw [hreq]
      simp

/-- C4 witness: the amended idempotence applied to a concrete contiguous
list with a short first segment. -/
theorem claim_C4_witness :
    List.Chain' meets [⟨0, 1, "flight", 1, 0⟩, ⟨1, 5, "freefall", 1, 0⟩] ∧
    merge_short_segments 3
        (merge_short_segments 3 [⟨0, 1, "flight", 1, 0⟩, ⟨1, 5, "freefall", 1, 0⟩])
      = merge_short_segments 3 [⟨0, 1, "flight", 1, 0⟩, ⟨1, 5, "freefall", 1, 0⟩] := by
  have hchain : List.Chain' meets
      [(⟨0, 1, "flight", 1, 0⟩ : VideoSegment), ⟨1, 5, "freefall", 1, 0⟩] := by
    norm_num [List.chain'_cons, meets]
  exact ⟨hchain, claim_C4 3 _ hchain (by
    intro s hs
    simp only [List.mem_cons, List.not_mem_nil, or_false] at hs
    rcases hs with rfl | rfl <;> norm_num)⟩

/-- Prepending a positive segment that ends where a span begins extends
the span. -/
theorem segSpan_cons (x : VideoSegment) (l : List VideoSegment) (E : ℚ)
    (h : SegSpan l x.end_time E) (hx : x.start_time < x.end_time) :
    SegSpan (x :: l) x.start_time E := by
  obtain ⟨hne, hch, hp, hh, hl⟩ := h
  refine ⟨by simp, ?_, ?_, by simp, ?_⟩
  · cases l with
    | nil => exact absurd rfl hne
    | cons b m =>
      rw [List.chain'_cons]
      exact ⟨(hh b rfl).symm, hch⟩
  · intro s hs
    rcases List.mem_cons.mp hs with rfl | hs
    · exact hx
    · exact hp s hs
  · cases l with
    | nil => exact absurd rfl hne
    | cons b m =>
      intro s hs
      rw [List.getLast?_cons_cons] at hs
      exact hl s hs

/-- A contiguous chain of positive segments is pairwise non-overlapping. -/
theorem pairwise_of_chain :
    ∀ (l : List VideoSegment), List.Chain' meets l →
      (∀ s ∈ l, s.start_time < s.end_time) →
      l.Pairwise (fun a b => a.end_time ≤ b.start_time) := by
  have key : ∀ (l : List VideoSegment) (x : VideoSegment),
      List.Chain' meets (x :: l) → (∀ s ∈ x :: l, s.start_time < s.end_time) →
      ∀ b ∈ l, x.end_time ≤ b.start_time := by
    intro l
    induction l with
    | nil => intro x _ _ b hb; simp at hb
    | cons y m ih =>
      intro x hch hp b hb
      have hxy : x.end_time = y.start_time := (List.chain'_cons.mp hch).1
      rcases List.mem_cons.mp hb with rfl | hb
      · exact le_of_eq hxy
      · have hy := ih y (List.chain'_cons.mp hch).2 (fun s hs => hp s (by simp [hs])) b hb
        have hyy : y.start_time < y.end_time := hp y (by simp)
        linarith [hxy ▸ hyy]
  intro l
  induction l with
  | nil => intro _ _; exact List.Pairwise.nil
  | cons x m ih =>
    intro hch hp
    exact List.Pairwise.cons (key m x hch hp)
      (ih ((List.chain'_cons'.mp hch).2) (fun s hs => hp s (by simp [hs])))

/-- The coverage span depends only on the segments' start and end times. -/
theorem segspan_of_times_eq (l₁ l₂ : List VideoSegment) (S E : ℚ)
    (h : l₁.map (fun s => (s.start_time, s.end_time))
      = l₂.map (fun s => (s.start_time, s.end_time)))
    (hs : SegSpan l₂ S E) : SegSpan l₁ S E := by
  obtain ⟨hne, hch, hp, hh, hl⟩ := hs
  have hlen : l₁.length = l₂.length := by
    have := congrArg List.length h
    simpa using this
  refine ⟨?_, ?_, ?_, ?_, ?_⟩
  · intro hnil
    rw [hnil] at hlen
    exact hne (List.length_eq_zero.mp hlen.symm)
  · have h2 : List.Chain' (fun p q : ℚ × ℚ => p.2 = q.1)
        (l₂.map fun s => (s.start_time, s.end_time)) :=
      List.chain'_map_of_chain' (fun s : VideoSegment => (s.start_time, s.end_time))
        (fun a b hab => hab) hch
    rw [← h] at h2
    have h3 := (List.chain'_map
      (fun s : VideoSegment => (s.start_time, s.end_time))).mp h2
    exact h3.imp fun a b hab => hab
  · intro s hs1
    have : (s.start_time, s.end_time)
        ∈ l₂.map fun s => (s.start_time, s.end_time) := by
      rw [← h]
      exact List.mem_map_of_mem _ hs1
    obtain ⟨t, ht, hts⟩ := List.mem_map.mp this
    have h1 : t.start_time = s.start_time := congrArg Prod.fst hts
    have h2 : t.end_time = s.end_time := congrArg Prod.snd hts
    rw [← h1, ← h2]
    exact hp t ht
  · intro s hs1
    have hm : (l₁.map fun s => (s.start_time, s.end_time)).head?
        = (l₂.map fun s => (s.start_time, s.end_time)).head? := by rw [h]
    rw [List.head?_map, List.head?_map] at hm
    cases hl2 : l₂.head? with
    | none =>
      rw [List.head?_eq_none_iff] at hl2
      exact absurd hl2 hne
    | some t =>
      rw [hl2] at hm
      rw [hs1] at hm
      simp only [Option.map_some'] at hm
      have := hh t (by rw [hl2]; rfl)
      have h1 : s.start_time = t.start_time :=
        congrArg Prod.fst (Option.some.inj hm)
      rw [h1]
      exact this
  · intro s hs1
    have hm : (l₁.map fun s => (s.start_time, s.end_time)).getLast?
        = (l₂.map fun s => (s.start_time, s.end_time)).getLast? := by rw [h]
    rw [List.getLast?_map, List.getLast?_map] at hm
    cases hl2 : l₂.getLast? with
    | none =>
      rw [List.getLast?_eq_none_iff] at hl2
      exact absurd hl2 hne
    | some t =>
      rw [hl2] at hm
      rw [hs1] at hm
      simp only [Option.map_some'] at hm
      have := hl t (by rw [hl2]; rfl)
      have h1 : s.end_time = t.end_time :=
        congrArg Prod.snd (Option.some.inj hm)
      rw [h1]
      exact this

/-- Invariant of the boundary-detection loop: from an open segment whose
start does not exceed the last seen timestamp, with strictly increasing
remaining timestamps, the emitted segments span from the open start to one
past the final timestamp. -/
theorem boundaries_go_spec :
    ∀ (rest : List (ℚ × String × ℚ)) (cs : ℚ) (cc : String) (confs : List ℚ)
      (lastTs E : ℚ),
      cs ≤ lastTs →
      (∀ p ∈ rest.head?, lastTs < p.1) →
      List.Chain' (fun a b : ℚ × String × ℚ => a.1 < b.1) rest →
      (∀ p ∈ rest.getLast?, p.1 + 1 = E) →
      (rest = [] → lastTs + 1 = E) →
      SegSpan (boundaries_go cs cc confs lastTs rest) cs E := by
  intro rest
  induction rest with
  | nil =>
    intro cs cc confs lastTs E hle _ _ _ hE
    have hE' : lastTs + 1 = E := hE rfl
    refine ⟨by simp [boundaries_go], by simp [boundaries_go], ?_, ?_, ?_⟩
    · intro s hs
      simp only [boundaries_go, List.mem_singleton] at hs
      subst hs
      simp only
      linarith
    · intro s hs
      simp only [boundaries_go, List.head?_cons, Option.mem_some_iff] at hs
      subst hs
      rfl
    · intro s hs
      simp only [boundaries_go, List.getLast?_singleton, Option.mem_some_iff] at hs
      subst hs
      exact hE'
  | cons p rest' ih =>
    intro cs cc confs lastTs E hle hhd hchain hE _
    obtain ⟨t, c, conf⟩ := p
    have hlt : lastTs < t := hhd (t, c, conf) rfl
    by_cases hc : c = cc
    · have hmg : boundaries_go cs cc confs lastTs ((t, c, conf) :: rest')
          = boundaries_go cs cc (confs ++ [conf]) t rest' := by
        simp [boundaries_go, hc]
      rw [hmg]
      refine ih cs cc (confs ++ [conf]) t E (by linarith) ?_ ?_ ?_ ?_
      · intro q hq
        cases rest' with
        | nil => simp at hq
        | cons q' m =>
          simp only [List.head?_cons, Option.mem_some_iff] at hq
          subst hq
          exact (List.chain'_cons.mp hchain).1
      · exact (List.chain'_cons'.mp hchain).2
      · intro q hq
        refine hE q ?_
        cases rest' with
        | nil => simp at hq
        | cons q' m => rw [List.getLast?_cons_cons]; exact hq
      · intro hnil
        subst hnil
        have := hE (t, c, conf) rfl
        simpa using this
    · have hmg : boundaries_go cs cc confs lastTs ((t, c, conf) :: rest')
          = ⟨cs, t, cc, avgConf confs, 0⟩ :: boundaries_go t c [conf] t rest' := by
        simp [boundaries_go, hc]
      rw [hmg]
      have htail : SegSpan (boundaries_go t c [conf] t rest') t E := by
        refine ih t c [conf] t E le_rfl ?_ ?_ ?_ ?_
        · intro q hq
          cases rest' with
          | nil => simp at hq
          | cons q' m =>
            simp only [List.head?_cons, Option.mem_some_iff] at hq
            subst hq
            exact (List.chain'_cons.mp hchain).1
        · exact (List.chain'_cons'.mp hchain).2
        · intro q hq
          refine hE q ?_
          cases rest' with
          | nil => simp at hq
          | cons q' m => rw [List.getLast?_cons_cons]; exact hq
        · intro hnil
          subst hnil
          have := hE (t, c, conf) rfl
          simpa using this
      exact segSpan_cons ⟨cs, t, cc, avgConf confs, 0⟩ _ E htail (by
        simp only
        linarith)

/-- Boundary detection on a non-empty strictly-increasing sample list
spans from the first timestamp to one past the last. -/
theorem detect_boundaries_spec (mapped : List (ℚ × String × ℚ)) (E : ℚ)
    (hinc : List.Chain' (fun a b : ℚ × String × ℚ => a.1 < b.1) mapped)
    (hE : ∀ p ∈ mapped.getLast?, p.1 + 1 = E) :
    ∀ h ∈ mapped.head?, SegSpan (detect_boundaries mapped) h.1 E := by
  intro h hh
  cases mapped with
  | nil => simp at hh
  | cons p rest =>
    obtain ⟨t, c, conf⟩ := p
    simp only [List.head?_cons, Option.mem_some_iff] at hh
    subst hh
    show SegSpan (boundaries_go t c [conf] t rest) t E
    refine boundaries_go_spec rest t c [conf] t E le_rfl ?_ ?_ ?_ ?_
    · intro q hq
      cases rest with
      | nil => simp at hq
      | cons q' m =>
        simp only [List.head?_cons, Option.mem_some_iff] at hq
        subst hq
        exact (List.chain'_cons.mp hinc).1
    · exact (List.chain'_cons'.mp hinc).2
    · intro q hq
      refine hE q ?_
      cases rest with
      | nil => simp at hq
      | cons q' m => rw [List.getLast?_cons_cons]; exact hq
    · intro hnil
      subst hnil
      have := hE (t, c, conf) rfl
      simpa using this

/-- Smoothing never changes timestamps. -/
theorem smoothing_ts_map (w : ℕ) (cs : List FrameClassification) :
    (apply_smoothing w cs).map FrameClassification.timestamp
      = cs.map FrameClassification.timestamp := by
  unfold apply_smoothing
  by_cases hl : cs.length ≤ w
  · rw [if_pos hl]
  · rw [if_neg hl]
    simp only [List.map_map]
    have hpt : ∀ p ∈ cs.enum,
        (FrameClassification.timestamp ∘ fun p : ℕ × FrameClassification =>
          let i := p.1
          let clf := p.2
          let s := i - w / 2
          let e := min cs.length (i + w / 2 + 1)
          let window := (cs.drop s).take (e - s)
          let mc := most_common (window.map (·.category))
          if mc = clf.category then clf else { clf with category := mc }) p
        = (FrameClassification.timestamp ∘ Prod.snd) p := by
      intro p _
      simp only [Function.comp_apply]
      split
      · rfl
      · rfl
    rw [List.map_congr_left hpt, ← List.map_map, List.enum_map_snd]

/-- Category mapping keeps the timestamps as the first components. -/
theorem mapcat_fst_map (cs : List FrameClassification) :
    (map_categories cs).map Prod.fst = cs.map FrameClassification.timestamp := by
  unfold map_categories
  rw [List.map_map]
  rfl

/-- Ground refinement never changes start and end times. -/
theorem refine_go_times (b : Bool) (l : List VideoSegment) :
    (refine_go b l).map (fun s => (s.start_time, s.end_time))
      = l.map (fun s => (s.start_time, s.end_time)) := by
  induction l generalizing b with
  | nil => rfl
  | cons s rest ih =>
    unfold refine_go
    split_ifs with h1 h2 <;> simp [ih]

/-- Sequence numbering never changes start and end times. -/
theorem assign_sequence_times (l : List VideoSegment) :
    (assign_sequence l).map (fun s => (s.start_time, s.end_time))
      = l.map (fun s => (s.start_time, s.end_time)) := by
  unfold assign_sequence
  rw [List.map_map]
  have hpt : ∀ p ∈ l.enum,
      ((fun s => (s.start_time, s.end_time))
        ∘ fun p : ℕ × VideoSegment => { p.2 with sequence_order := p.1 }) p
      = ((fun s => (s.start_time, s.end_time)) ∘ Prod.snd) p := by
    intro p _
    rfl
  rw [List.map_congr_left hpt, ← List.map_map, List.enum_map_snd]

/-- QR injection preserves a coverage span that starts at zero. -/
theorem add_qr_segspan (l : List VideoSegment) (e E : ℚ) (he : 0 < e)
    (h : SegSpan l 0 E) : SegSpan (add_qr_segment l e) 0 E := by
  obtain ⟨hne, hch, hp, hh, hl⟩ := h
  obtain ⟨first, rest, rfl⟩ : ∃ a m, l = a :: m := by
    cases l with
    | nil => exact absurd rfl hne
    | cons a m => exact ⟨a, m, rfl⟩
  have hf0 : first.start_time = 0 := hh first rfl
  simp only [add_qr_segment]
  rw [if_pos (show first.start_time < e by rw [hf0]; exact he)]
  by_cases h2 : first.end_time ≤ e
  · rw [if_pos h2]
    refine ⟨by simp, ?_, ?_, by simp, ?_⟩
    · cases rest with
      | nil => simp
      | cons b m =>
        rw [List.chain'_cons]
        exact ⟨(List.chain'_cons.mp hch).1, (List.chain'_cons.mp hch).2⟩
    · intro s hs
      rcases List.mem_cons.mp hs with rfl | hs
      · simp only
        have := hp first (by simp)
        rw [hf0] at this
        exact this
      · exact hp s (by simp [hs])
    · cases rest with
      | nil =>
        intro s hs
        simp only [List.getLast?_singleton, Option.mem_some_iff] at hs
        subst hs
        exact hl first rfl
      | cons b m =>
        intro s hs
        rw [List.getLast?_cons_cons] at hs
        exact hl s (by rw [List.getLast?_cons_cons]; exact hs)
  · rw [if_neg h2]
    have hfe : e < first.end_time := not_le.mp h2
    refine ⟨by simp, ?_, ?_, by simp, ?_⟩
    · rw [List.chain'_cons]
      refine ⟨rfl, ?_⟩
      cases rest with
      | nil => simp
      | cons b m =>
        rw [List.chain'_cons]
        exact ⟨(List.chain'_cons.mp hch).1, (List.chain'_cons.mp hch).2⟩
    · intro s hs
      rcases List.mem_cons.mp hs with rfl | hs
      · exact he
      · rcases List.mem_cons.mp hs with rfl | hs
        · exact hfe
        · exact hp s (by simp [hs])
    · intro s hs
      rw [List.getLast?_cons_cons] at hs
      cases rest with
      | nil =>
        simp only [List.getLast?_singleton, Option.mem_some_iff] at hs
        subst hs
        exact hl first rfl
      | cons b m =>
        rw [List.getLast?_cons_cons] at hs
        exact hl s (by rw [List.getLast?_cons_cons]; exact hs)

/-- C3: for a non-empty classification list with strictly increasing
timestamps, the first at time zero and the last at time D - 1, the
detected segments are time-ordered, pairwise non-overlapping, and cover
the interval from 0 to D with no gaps: the first segment starts at 0, each
segment ends where the next starts, and the last segment ends at D — for
every marker-end-time argument. -/
theorem claim_C3 (w : ℕ) (minD : ℚ) (cs : List FrameClassification) (q : Option ℚ)
    (D : ℚ) (hne : cs ≠ [])
    (hinc : List.Chain' (fun a b => a.timestamp < b.timestamp) cs)
    (h0 : ∀ c ∈ cs.head?, c.timestamp = 0)
    (hD : ∀ c ∈ cs.getLast?, c.timestamp + 1 = D) :
    SegSpan (detect_segments w minD cs q).1 0 D ∧
    (detect_segments w minD cs q).1.Pairwise
      (fun a b => a.end_time ≤ b.start_time) := by
  obtain ⟨c0, cs', rfl⟩ : ∃ a m, cs = a :: m := by
    cases cs with
    | nil => exact absurd rfl hne
    | cons a m => exact ⟨a, m, rfl⟩
  have hts : (apply_smoothing w (c0 :: cs')).map FrameClassification.timestamp
      = (c0 :: cs').map FrameClassification.timestamp := smoothing_ts_map _ _
  have hfstmap : (map_categories (apply_smoothing w (c0 :: cs'))).map Prod.fst
      = (c0 :: cs').map FrameClassification.timestamp := by
    rw [mapcat_fst_map, hts]
  have hTinc : List.Chain' (fun a b : ℚ => a < b)
      ((c0 :: cs').map FrameClassification.timestamp) :=
    List.chain'_map_of_chain' FrameClassification.timestamp (fun a b hab => hab) hinc
  have hmincr : List.Chain' (fun a b : ℚ × String × ℚ => a.1 < b.1)
      (map_categories (apply_smoothing w (c0 :: cs'))) := by
    have h1 : List.Chain' (fun a b : ℚ => a < b)
        ((map_categories (apply_smoothing w (c0 :: cs'))).map Prod.fst) := by
      rw [hfstmap]
      exact hTinc
    have h2 := (List.chain'_map (Prod.fst : ℚ × String × ℚ → ℚ)).mp h1
    exact h2.imp fun a b hab => hab
  have hmlast : ∀ p ∈ (map_categories (apply_smoothing w (c0 :: cs'))).getLast?,
      p.1 + 1 = D := by
    intro p hp
    have h1 : ((map_categories (apply_smoothing w (c0 :: cs'))).map Prod.fst).getLast?
        = some p.1 := by
      rw [List.getLast?_map]
      cases hg : (map_categories (apply_smoothing w (c0 :: cs'))).getLast? with
      | none => rw [hg] at hp; simp at hp
      | some t =>
        rw [hg] at hp
        simp only [Option.mem_some_iff] at hp
        rw [← hp]
        rfl
    rw [hfstmap, List.getLast?_map] at h1
    cases hg2 : (c0 :: cs').getLast? with
    | none =>
      rw [List.getLast?_eq_none_iff] at hg2
      simp at hg2
    | some t =>
      rw [hg2] at h1
      simp only [Option.map_some'] at h1
      have ht := hD t (by rw [hg2]; rfl)
      rw [← Option.some.inj h1]
      exact ht
  have hmne : map_categories (apply_smoothing w (c0 :: cs')) ≠ [] := by
    intro hnil
    have := congrArg List.length hfstmap
    rw [hnil] at this
    simp at this
  obtain ⟨p₀, hp₀⟩ : ∃ p, (map_categories (apply_smoothing w (c0 :: cs'))).head?
      = some p := by
    cases hg : (map_categories (apply_smoothing w (c0 :: cs'))).head? with
    | none =>
      rw [List.head?_eq_none_iff] at hg
      exact absurd hg hmne
    | some p => exact ⟨p, rfl⟩
  have hp01 : p₀.1 = 0 := by
    have h1 : ((map_categories (apply_smoothing w (c0 :: cs'))).map Prod.fst).head?
        = some p₀.1 := by
      rw [List.head?_map, hp₀]
      rfl
    rw [hfstmap, List.head?_map] at h1
    simp only [List.head?_cons, Option.map_some'] at h1
    rw [← Option.some.inj h1]
    exact h0 c0 rfl
  have hraw : SegSpan
      (detect_boundaries (map_categories (apply_smoothing w (c0 :: cs')))) 0 D := by
    have h := detect_boundaries_spec (map_categories (apply_smoothing w (c0 :: cs')))
      D hmincr hmlast p₀ (by rw [hp₀]; rfl)
    rw [hp01] at h
    exact h
  have hmg := merge_short_spec minD 0 D _ hraw
  have href : SegSpan (refine_ground_classifications (merge_short_segments minD
      (detect_boundaries (map_categories (apply_smoothing w (c0 :: cs')))))) 0 D :=
    segspan_of_times_eq _ _ 0 D (refine_go_times false _) hmg.1
  cases q with
  | none =>
    have hnum := segspan_of_times_eq _ _ 0 D (assign_sequence_times _) href
    have hfst : (detect_segments w minD (c0 :: cs') none).1
        = assign_sequence (refine_ground_classifications (merge_short_segments minD
          (detect_boundaries (map_categories (apply_smoothing w (c0 :: cs')))))) := rfl
    rw [hfst]
    exact ⟨hnum, pairwise_of_chain _ hnum.2.1 hnum.2.2.1⟩
  | some e =>
    have hfst : (detect_segments w minD (c0 :: cs') (some e)).1
        = assign_sequence (if 0 < e then add_qr_segment
            (refine_ground_classifications (merge_short_segments minD
              (detect_boundaries (map_categories (apply_smoothing w (c0 :: cs')))))) e
          else refine_ground_classifications (merge_short_segments minD
            (detect_boundaries (map_categories (apply_smoothing w (c0 :: cs')))))) := rfl
    by_cases hepos : 0 < e
    · have hwq := add_qr_segspan _ e D hepos href
      have hnum := segspan_of_times_eq _ _ 0 D (assign_sequence_times _) hwq
      rw [hfst, if_pos hepos]
      exact ⟨hnum, pairwise_of_chain _ hnum.2.1 hnum.2.2.1⟩
    · have hnum := segspan_of_times_eq _ _ 0 D (assign_sequence_times _) href
      rw [hfst, if_neg hepos]
      exact ⟨hnum, pairwise_of_chain _ hnum.2.1 hnum.2.2.1⟩

/-- C3 witness: the coverage invariant applied to a concrete two-sample
classification list of duration two. -/
theorem claim_C3_witness :
    SegSpan (detect_segments 3 3 [⟨0, "boden", 1, []⟩, ⟨1, "freefall", 1, []⟩]
      (some 5)).1 0 2 ∧
    (detect_segments 3 3 [⟨0, "boden", 1, []⟩, ⟨1, "freefall", 1, []⟩]
      (some 5)).1.Pairwise (fun a b => a.end_time ≤ b.start_time) := by
  refine claim_C3 3 3 [⟨0, "boden", 1, []⟩, ⟨1, "freefall", 1, []⟩] (some 5) 2
    (by simp) ?_ ?_ ?_
  · refine List.chain'_cons.mpr ⟨?_, List.chain'_singleton _⟩
    norm_num
  · intro c hc
    simp only [List.head?_cons, Option.mem_some_iff] at hc
    rw [← hc]
  · intro c hc
    rw [List.getLast?_cons_cons] at hc
    simp only [List.getLast?_singleton, Option.mem_some_iff] at hc
    rw [← hc]
    norm_num

end Stinercut
